import Mathlib

/-!
Shallow embedding of the BlenderAI mini planner agent
(`agent.py`, `planner.py`, `models.py`, `tools.py`).

Python strings are modelled as `List Char`.  The planner LLM, the wall
clock, tool behaviour, the filesystem and the Blender subprocess are
external to the program and are modelled as oracle functions supplied in
environment structures; everything else is translated from the source.
-/

/-- Python strings are modelled as lists of characters. -/
abbrev Str := List Char

/-- Turn a Lean string literal into the `List Char` model. -/
def strLit (s : String) : Str := s.data

/-- The character `\x7b` (opening curly brace). -/
def braceO : Char := '\x7b'

/-- The character `\x7d` (closing curly brace). -/
def braceC : Char := '\x7d'

/-- The character `[`. -/
def brackO : Char := '['

/-- The character `]`. -/
def brackC : Char := ']'

/-- The double-quote character. -/
def dquote : Char := '"'

/-- The backslash character. -/
def bslash : Char := '\\'

/-- JSON insignificant whitespace: space, tab, line feed, carriage return. -/
def isJsonWs (c : Char) : Bool :=
  c.toNat = 32 || c.toNat = 9 || c.toNat = 10 || c.toNat = 13

/-- The whitespace set stripped by Python `str.strip()` (ASCII part). -/
def isPyWs (c : Char) : Bool :=
  c.toNat = 32 || c.toNat = 9 || c.toNat = 10 || c.toNat = 13 ||
  c.toNat = 11 || c.toNat = 12

/-- Drop trailing characters satisfying `p` (used for Python `strip`). -/
def dropTrailing (p : Char → Bool) (l : Str) : Str :=
  (l.reverse.dropWhile p).reverse

/-- Python `str.strip()`: remove leading and trailing whitespace. -/
def pyStrip (l : Str) : Str :=
  dropTrailing isPyWs (l.dropWhile isPyWs)

/-- Skip leading JSON whitespace. -/
def skipWs (l : Str) : Str := l.dropWhile isJsonWs

/-- Decimal digit check (`0`–`9`). -/
def isDigitChar (c : Char) : Bool := 48 ≤ c.toNat && c.toNat ≤ 57

/-- The decimal digit character for `d < 10`. -/
def digitChar : Nat → Char
  | 0 => '0' | 1 => '1' | 2 => '2' | 3 => '3' | 4 => '4'
  | 5 => '5' | 6 => '6' | 7 => '7' | 8 => '8' | _ => '9'

/-- Numeric value of a digit character. -/
def digitVal (c : Char) : Nat := c.toNat - 48

/-- Decimal digits of `m`, most significant first, accumulator form. -/
def natDigitsAux (m : Nat) (acc : Str) : Str :=
  if h : m < 10 then digitChar m :: acc
  else natDigitsAux (m / 10) (digitChar (m % 10) :: acc)
  termination_by m
  decreasing_by exact Nat.div_lt_self (by omega) (by omega)

/-- Decimal representation of a natural number. -/
def encodeNat (m : Nat) : Str := natDigitsAux m []

/-- Decimal representation of an integer (Python `str(int)` / JSON number). -/
def encodeInt (n : Int) : Str :=
  if n < 0 then '-' :: encodeNat n.natAbs else encodeNat n.natAbs

/-- Numeric value of a digit string (fold as produced by a left-to-right scan). -/
def digitsToNat (ds : Str) : Nat :=
  ds.foldl (fun a c => a * 10 + digitVal c) 0

/-!  ## JSON values

A model of the JSON data handled by `pydantic`'s `model_validate_json`
(`jiter`).  Floating point numbers and `\uXXXX` escapes are outside the
model; object member order is kept and duplicate keys are resolved by the
last occurrence, as in Python dicts built from JSON.  -/

mutual

inductive Json where
  | null : Json
  | bool (b : Bool) : Json
  | num (n : Int) : Json
  | str (s : Str) : Json
  | arr (xs : JsonArr) : Json
  | obj (kvs : JsonObj) : Json

inductive JsonArr where
  | nil : JsonArr
  | cons (hd : Json) (tl : JsonArr) : JsonArr

inductive JsonObj where
  | nil : JsonObj
  | cons (k : Str) (v : Json) (tl : JsonObj) : JsonObj

end

/-- Escape one character of a JSON string: only `"` and `\` are escaped
(the well-formedness predicate below excludes control characters). -/
def escChar (c : Char) : Str :=
  if c.toNat = 34 || c.toNat = 92 then [bslash, c] else [c]

/-- Body of a JSON string literal (without the surrounding quotes). -/
def encodeStrBody : Str → Str
  | [] => []
  | c :: t => escChar c ++ encodeStrBody t

/-- A JSON string literal. -/
def encodeStrLit (s : Str) : Str := dquote :: (encodeStrBody s ++ [dquote])

mutual

/-- Canonical serialization of a JSON value (no insignificant whitespace). -/
def encodeJson : Json → Str
  | .null => strLit "null"
  | .bool true => strLit "true"
  | .bool false => strLit "false"
  | .num n => encodeInt n
  | .str s => encodeStrLit s
  | .arr .nil => [brackO, brackC]
  | .arr (.cons v tl) => brackO :: (encodeElemsBody (.cons v tl) ++ [brackC])
  | .obj .nil => [braceO, braceC]
  | .obj (.cons k v tl) => braceO :: (encodeMembersBody (.cons k v tl) ++ [braceC])

/-- Comma-separated array elements. -/
def encodeElemsBody : JsonArr → Str
  | .nil => []
  | .cons v .nil => encodeJson v
  | .cons v tl => encodeJson v ++ ',' :: encodeElemsBody tl

/-- Comma-separated object members. -/
def encodeMembersBody : JsonObj → Str
  | .nil => []
  | .cons k v .nil => encodeStrLit k ++ ':' :: encodeJson v
  | .cons k v tl => encodeStrLit k ++ ':' :: encodeJson v ++ ',' :: encodeMembersBody tl

end

/-- A string is representable without `\uXXXX` escapes: no control characters. -/
def wfStr (s : Str) : Bool := s.all (fun c => 32 ≤ c.toNat)

mutual

/-- All strings inside the value avoid control characters. -/
def wfVal : Json → Bool
  | .null => true
  | .bool _ => true
  | .num _ => true
  | .str s => wfStr s
  | .arr xs => wfElems xs
  | .obj kvs => wfMembers kvs

def wfElems : JsonArr → Bool
  | .nil => true
  | .cons v tl => wfVal v && wfElems tl

def wfMembers : JsonObj → Bool
  | .nil => true
  | .cons k v tl => wfStr k && wfVal v && wfMembers tl

end

mutual

/-- Parser fuel needed for a value (each recursive parser call costs 1). -/
def costVal : Json → Nat
  | .arr xs => costElems xs + 1
  | .obj kvs => costMembers kvs + 1
  | _ => 1

def costElems : JsonArr → Nat
  | .nil => 0
  | .cons v tl => costVal v + costElems tl + 1

def costMembers : JsonObj → Nat
  | .nil => 0
  | .cons _ v tl => costVal v + costMembers tl + 1

end

/-- Translate a JSON escape character; `\uXXXX` is not modelled. -/
def unescape (e : Char) : Option Char :=
  if e.toNat = 34 || e.toNat = 92 || e.toNat = 47 then some e
  else if e.toNat = 110 then some '\n'
  else if e.toNat = 116 then some '\t'
  else if e.toNat = 114 then some '\r'
  else if e.toNat = 98 then some '\x08'
  else if e.toNat = 102 then some '\x0c'
  else none

/-- Parse the body of a JSON string literal after the opening quote; raw
control characters are rejected, as in `jiter`. -/
def parseStrBody : Str → Option (Str × Str)
  | [] => none
  | c :: rest =>
    if c.toNat = 34 then some ([], rest)
    else if c.toNat = 92 then
      match rest with
      | [] => none
      | e :: rest2 =>
        match unescape e with
        | none => none
        | some ch =>
          match parseStrBody rest2 with
          | some (s, r) => some (ch :: s, r)
          | none => none
    else if c.toNat < 32 then none
    else
      match parseStrBody rest with
      | some (s, r) => some (c :: s, r)
      | none => none

/-- Parse a maximal run of decimal digits. -/
def parseDigits (l : Str) : Option (Nat × Str) :=
  if l.takeWhile isDigitChar = [] then none
  else some (digitsToNat (l.takeWhile isDigitChar), l.dropWhile isDigitChar)

mutual

/-- Parse one JSON value (after skipping leading whitespace). -/
def parseVal : Nat → Str → Option (Json × Str)
  | 0, _ => none
  | fuel + 1, l =>
    match skipWs l with
    | [] => none
    | c :: rest =>
      if c.toNat = 123 then
        match skipWs rest with
        | [] => none
        | c2 :: rest2 =>
          if c2.toNat = 125 then some (.obj .nil, rest2)
          else
            match parseMembers fuel (c2 :: rest2) with
            | some (kvs, r) => some (.obj kvs, r)
            | none => none
      else if c.toNat = 91 then
        match skipWs rest with
        | [] => none
        | c2 :: rest2 =>
          if c2.toNat = 93 then some (.arr .nil, rest2)
          else
            match parseElems fuel (c2 :: rest2) with
            | some (xs, r) => some (.arr xs, r)
            | none => none
      else if c.toNat = 34 then
        match parseStrBody rest with
        | some (s, r) => some (.str s, r)
        | none => none
      else if c.toNat = 116 then
        match rest with
        | 'r' :: 'u' :: 'e' :: r => some (.bool true, r)
        | _ => none
      else if c.toNat = 102 then
        match rest with
        | 'a' :: 'l' :: 's' :: 'e' :: r => some (.bool false, r)
        | _ => none
      else if c.toNat = 110 then
        match rest with
        | 'u' :: 'l' :: 'l' :: r => some (.null, r)
        | _ => none
      else if c.toNat = 45 then
        match parseDigits rest with
        | some (m, r) => some (.num (-(m : Int)), r)
        | none => none
      else if isDigitChar c then
        match parseDigits (c :: rest) with
        | some (m, r) => some (.num (m : Int), r)
        | none => none
      else none

/-- Parse one or more object members starting at a key (no leading
whitespace before the first key). -/
def parseMembers : Nat → Str → Option (JsonObj × Str)
  | 0, _ => none
  | fuel + 1, l =>
    match l with
    | c :: rest =>
      if c.toNat = 34 then
        match parseStrBody rest with
        | some (k, r1) =>
          match skipWs r1 with
          | ':' :: r2 =>
            match parseVal fuel r2 with
            | some (v, r3) =>
              match skipWs r3 with
              | ',' :: r4 =>
                match parseMembers fuel (skipWs r4) with
                | some (kvs, r5) => some (.cons k v kvs, r5)
                | none => none
              | c5 :: r4 =>
                if c5.toNat = 125 then some (.cons k v .nil, r4) else none
              | [] => none
            | none => none
          | _ => none
        | none => none
      else none
    | [] => none

/-- Parse one or more array elements. -/
def parseElems : Nat → Str → Option (JsonArr × Str)
  | 0, _ => none
  | fuel + 1, l =>
    match parseVal fuel l with
    | some (v, r1) =>
      match skipWs r1 with
      | ',' :: r2 =>
        match parseElems fuel (skipWs r2) with
        | some (xs, r3) => some (.cons v xs, r3)
        | none => none
      | c :: r2 => if c.toNat = 93 then some (.cons v .nil, r2) else none
      | [] => none
    | none => none

end

/-!  ## `models.py` — `PlannerResponseModel` and `planner.py` — output parsing -/

/-- `models.PlannerResponseModel`: the planner decision.  `tool_input` is an
arbitrary JSON object (Python `Optional[dict]`). -/
structure PlannerResponseModel where
  final : Bool
  tool_call : Option Str := none
  tool_input : Option JsonObj := none
  answer : Str

/-- Last-occurrence lookup in a JSON object, matching the Python dict built
from JSON where later duplicate keys override earlier ones. -/
def lookupLast (kvs : JsonObj) (key : Str) : Option Json :=
  match kvs with
  | .nil => none
  | .cons k v tl =>
    match lookupLast tl key with
    | some r => some r
    | none => if k = key then some v else none

/-- Validate an `Optional[str]` field: absent or `null` is `None`, a string
is itself, anything else fails validation. -/
def asOptStr : Option Json → Option (Option Str)
  | none => some none
  | some .null => some none
  | some (.str s) => some (some s)
  | some _ => none

/-- Validate an `Optional[dict]` field. -/
def asOptObj : Option Json → Option (Option JsonObj)
  | none => some none
  | some .null => some none
  | some (.obj o) => some (some o)
  | some _ => none

/-- Field validation of `PlannerResponseModel` on a parsed JSON object:
`final : bool` and `answer : str` are required, `tool_call` and
`tool_input` are optional; extra keys are ignored. -/
def toDecision (kvs : JsonObj) : Option PlannerResponseModel :=
  match lookupLast kvs (strLit "final") with
  | some (.bool b) =>
    match lookupLast kvs (strLit "answer") with
    | some (.str a) =>
      match asOptStr (lookupLast kvs (strLit "tool_call")),
            asOptObj (lookupLast kvs (strLit "tool_input")) with
      | some tc, some ti => some ⟨b, tc, ti, a⟩
      | _, _ => none
    | _ => none
  | _ => none

/-- `PlannerResponseModel.model_validate_json`: parse the whole (whitespace
trimmed) text as one JSON object and validate its fields.  A successfully
parsed top-level object starts at `\x7b` and ends at `\x7d`, so the brace
guard does not change the accepted set; it is kept explicit. -/
def model_validate_json (s : Str) : Option PlannerResponseModel :=
  let t := pyStrip s
  if t.head? = some braceO ∧ t.getLast? = some braceC then
    match parseVal (t.length + 1) t with
    | some (.obj kvs, []) => toDecision kvs
    | _ => none
  else none

/-- The fenced-code stripping of `parse_planner_output`: if the text starts
with three backticks and `json`, take Python `raw[7:-3].strip()`. -/
def stripFence (raw : Str) : Str :=
  if (strLit "```json").isPrefixOf raw then
    pyStrip ((raw.take (raw.length - 3)).drop 7)
  else raw

/-- `re.search(r"\x7b.*\x7d", raw, re.DOTALL)`: greedy match from the first
opening brace to the last closing brace, if both exist in that order. -/
def bracedMatch (l : Str) : Option Str :=
  let l₁ := l.dropWhile (fun c => c ≠ braceO)
  if l₁ = [] then none
  else
    let l₂ := dropTrailing (fun c => c ≠ braceC) l₁
    if l₂ = [] then none else some l₂

/-- The synthetic fallback decision of `parse_planner_output`. -/
def fallbackDecision : PlannerResponseModel :=
  ⟨true, none, none, strLit "❌ Could not parse Gemini planner output."⟩

/-- `planner.parse_planner_output`: strip a ```` ```json ```` fence, try
validation, then try validating the greedy brace-delimited substring of the
(possibly stripped) text, and finally fall back to a fixed apology
decision.  Mirrors that the Python local `raw` is reassigned before the
regex fallback. -/
def parse_planner_output (raw : Str) : PlannerResponseModel :=
  let raw1 := stripFence raw
  match model_validate_json raw1 with
  | some d => d
  | none =>
    match bracedMatch raw1 with
    | some m =>
      match model_validate_json m with
      | some d => d
      | none => fallbackDecision
    | none => fallbackDecision

/-!  ## `agent.py` — `MiniPlannerAgent` -/

/-- The values `agent.py` passes as `_log_step`'s `input` argument
(`user_input : str`, `planner_decision.tool_call : Optional[str]`,
`planner_decision.tool_input : Optional[dict]`, or a literal string). -/
inductive LogVal where
  | str (s : Str)
  | optStr (o : Option Str)
  | optObj (o : Option JsonObj)

/-- `models.StepDetailModel`.  `ts` is the `datetime.utcnow()` string. -/
structure StepDetailModel where
  step : Nat
  ts : Str
  tool : Str
  input : LogVal
  output : Str

/-- `models.AgentState`. -/
structure AgentState where
  detailed_steps_buffer : List StepDetailModel := []
  memory : List Str := []

/-- The external world of a run: the planner LLM call (which may raise),
the behaviour of a registered tool when invoked (which may raise), and the
wall clock.  Planner and tool outcomes are indexed by the number of
planner calls made so far; `Except.error` models a raised exception with
its `str(e)` text. -/
structure AgentEnv where
  planner : Nat → Except Str Str
  tool : Nat → Str → JsonObj → Except Str Str
  clock : Nat → Str

/-- The names registered in `tools.TOOL_REGISTRY`. -/
def TOOL_REGISTRY_keys : List Str := [strLit "RunBlenderScript"]

/-- Python f-string rendering of `Optional[str]` (`None` prints as "None"). -/
def showOptStr : Option Str → Str
  | none => strLit "None"
  | some s => s

/-- The fixed message returned when the step counter reaches the maximum. -/
def maxStepsMsg (max_steps : Nat) : Str :=
  strLit "Maximum steps (" ++ strLit (Nat.repr max_steps) ++
  strLit ") reached. Task may be incomplete."

/-- `MiniPlannerAgent._log_step`: append a step record whose index is one
more than the current buffer length. -/
def log_step (env : AgentEnv) (st : AgentState) (tool : Str) (input : LogVal)
    (output : Str) : AgentState :=
  { st with detailed_steps_buffer :=
      st.detailed_steps_buffer ++
      [⟨st.detailed_steps_buffer.length + 1,
        env.clock st.detailed_steps_buffer.length, tool, input, output⟩] }

/-- The `while` loop of `MiniPlannerAgent.run`.  `fuel` bounds the number
of loop iterations still modelled (`none` means the loop was still running
after `fuel` iterations); `sc` is `step_count` and `calls` counts planner
calls made so far.  Note the unknown-tool branch `continue`s without
incrementing `step_count`, as in the source. -/
def runLoop (reg : List Str) (env : AgentEnv) (max_steps : Nat) (user : Str) :
    Nat → Nat → Nat → AgentState → Option (Str × AgentState)
  | 0, sc, _, st =>
    if max_steps ≤ sc then
      some (maxStepsMsg max_steps,
        log_step env st (strLit "System") (.str (strLit "max_steps_reached"))
          (maxStepsMsg max_steps))
    else none
  | fuel + 1, sc, calls, st =>
    if max_steps ≤ sc then
      some (maxStepsMsg max_steps,
        log_step env st (strLit "System") (.str (strLit "max_steps_reached"))
          (maxStepsMsg max_steps))
    else
      match env.planner calls with
      | .error e =>
        let errm := strLit "Planner error: " ++ e
        some (strLit "Agent execution failed: " ++ errm,
          log_step env st (strLit "Error") (.str user) errm)
      | .ok raw =>
        let d := parse_planner_output raw
        let st1 := log_step env st (strLit "Planner") (.str user) d.answer
        if d.final then some (d.answer, st1)
        else
          match d.tool_call with
          | some name =>
            if name ∈ reg then
              match env.tool calls name (d.tool_input.getD .nil) with
              | .ok res =>
                let st2 := log_step env st1 name (.optObj d.tool_input) res
                let st3 := { st2 with memory := st2.memory ++
                  [strLit "Tool `" ++ name ++ strLit "` returned: " ++ res] }
                runLoop reg env max_steps user fuel (sc + 1) (calls + 1) st3
              | .error e =>
                let errm := strLit "Tool execution failed: " ++ e
                let st2 := log_step env st1 name (.optObj d.tool_input) errm
                let st3 := { st2 with memory := st2.memory ++
                  [strLit "Tool error: " ++ errm] }
                runLoop reg env max_steps user fuel (sc + 1) (calls + 1) st3
            else
              let errm := strLit "Unknown tool: " ++ showOptStr d.tool_call
              let st2 := log_step env st1 (strLit "Error") (.optStr d.tool_call) errm
              let st3 := { st2 with memory := st2.memory ++
                [strLit "Error: " ++ errm] }
              runLoop reg env max_steps user fuel sc (calls + 1) st3
          | none =>
            let errm := strLit "Unknown tool: " ++ showOptStr d.tool_call
            let st2 := log_step env st1 (strLit "Error") (.optStr d.tool_call) errm
            let st3 := { st2 with memory := st2.memory ++
              [strLit "Error: " ++ errm] }
            runLoop reg env max_steps user fuel sc (calls + 1) st3

/-- `MiniPlannerAgent.run`: records the user request in memory and enters
the planner loop with `step_count = 0`. -/
def run (reg : List Str) (env : AgentEnv) (max_steps fuel : Nat) (user : Str) :
    Option (Str × AgentState) :=
  runLoop reg env max_steps user fuel 0 0
    ⟨[], [strLit "User requested: " ++ user]⟩

/-- One entry of `get_execution_summary()["steps"]`. -/
structure StepSummary where
  step : Nat
  tool : Str
  timestamp : Str
  success : Bool

/-- The dictionary returned by `get_execution_summary`. -/
structure ExecutionSummary where
  total_steps : Nat
  memory_entries : Nat
  steps : List StepSummary

/-- `MiniPlannerAgent.get_execution_summary`. -/
def get_execution_summary (st : AgentState) : ExecutionSummary :=
  ⟨st.detailed_steps_buffer.length, st.memory.length,
   st.detailed_steps_buffer.map (fun s =>
     ⟨s.step, s.tool, s.ts,
      !(strLit "Error").isPrefixOf s.output &&
      !(strLit "Tool execution failed").isPrefixOf s.output⟩)⟩

/-!  ## `tools.py` — `run_blender_script_tool`

Side effects are recorded as an effect trace; file contents and the
generated script text are not modelled (only which external actions
happen, in order).  -/

/-- Externally visible actions of `run_blender_script_tool`. -/
inductive Effect where
  | generateScript (description : Json)
  | makeDirs (d : Str)
  | writeFile (path : Str)
  | spawnBlender (background : Bool)
  | removeFile (path : Str)
  | openFile (path : Str)

/-- Outcome of the background `subprocess.run` call. -/
inductive BgOutcome where
  | timeout
  | done (returncode : Int) (stdout stderr : Str)

/-- External world of one `run_blender_script_tool` call. -/
structure BlenderEnv where
  genScript : Json → Str
  timestamp : Str
  absPrefix : Str
  blenderExe : Option Str
  bg : BgOutcome
  outputExists : Bool
  openOk : Bool

/-- Python truthiness of a JSON-decoded value. -/
def pyTruthy : Json → Bool
  | .null => false
  | .bool b => b
  | .num n => n ≠ 0
  | .str s => s ≠ []
  | .arr .nil => false
  | .arr (.cons _ _) => true
  | .obj .nil => false
  | .obj (.cons _ _ _) => true

/-- Python truthiness of a `dict.get` result (`None` when absent). -/
def pyTruthyOpt : Option Json → Bool
  | none => false
  | some v => pyTruthy v

/-- `tools.run_blender_script_tool`, returning the result text and the
trace of external actions. -/
def run_blender_script_tool (benv : BlenderEnv) (tool_input : JsonObj) :
    Str × List Effect :=
  let description := lookupLast tool_input (strLit "description")
  let open_blender := (lookupLast tool_input (strLit "open_blender")).getD (.bool true)
  if pyTruthyOpt description = false then
    (strLit "Error: Missing \x27description\x27 in tool_input.", [])
  else
    let descVal := description.getD .null
    let output_path := benv.absPrefix ++ strLit "outputs/render_" ++
      benv.timestamp ++ strLit ".png"
    let user_script_path := strLit "user_script_" ++ benv.timestamp ++ strLit ".py"
    let script_path := strLit "blender_script.py"
    let eff0 : List Effect :=
      [.generateScript descVal, .makeDirs (strLit "outputs"),
       .writeFile user_script_path, .writeFile script_path]
    match benv.blenderExe with
    | none =>
      (strLit "Error: Blender executable not found. Please install Blender and add it to PATH.",
       eff0)
    | some _ =>
      if pyTruthy open_blender then
        (strLit "SUCCESS: Blender opened with your model! You can view it and render manually.\nGenerated script: " ++
           script_path ++ strLit "\nUser script: " ++ user_script_path,
         eff0 ++ [.spawnBlender false])
      else
        match benv.bg with
        | .timeout =>
          (strLit "Error: Blender execution timed out (300 seconds). The script might be too complex.",
           eff0 ++ [.spawnBlender true])
        | .done rc out err =>
          let eff1 := eff0 ++ [.spawnBlender true, .removeFile script_path,
            .removeFile user_script_path]
          if rc ≠ 0 then
            (strLit "Blender execution failed (code " ++ strLit (Int.repr rc) ++
               strLit "):\nSTDERR: " ++
               (if err = [] then strLit "Unknown error" else pyStrip err) ++
               strLit "\nSTDOUT: " ++ (if out = [] then [] else pyStrip out),
             eff1)
          else if benv.outputExists = false then
            (strLit "Render completed but no output file found at: " ++ output_path ++
               strLit "\nBlender output: " ++ out,
             eff1)
          else
            ((strLit "SUCCESS: 3D model rendered successfully!" ++
               (if benv.openOk then strLit " File opened in default viewer."
                else strLit " Could not open file automatically.") ++
               strLit "\nOutput: " ++ output_path),
             eff1 ++ [.openFile output_path])

/-!  ## Statement-level definitions -/

/-- The ledger indexing invariant: the `step` field of each record equals
its 1-based position in the buffer. -/
def ledger_ok (l : List StepDetailModel) : Prop :=
  ∀ i (h : i < l.length), (l.get ⟨i, h⟩).step = i + 1

/-- The agent state produced by one loop iteration whose decision is
non-final and names an unregistered (or absent) tool: the `continue`
branch of the loop. -/
def unknownState (env : AgentEnv) (user : Str) (raw : Str)
    (st : AgentState) : AgentState :=
  let d := parse_planner_output raw
  let st1 := log_step env st (strLit "Planner") (.str user) d.answer
  let errm := strLit "Unknown tool: " ++ showOptStr d.tool_call
  let st2 := log_step env st1 (strLit "Error") (.optStr d.tool_call) errm
  { st2 with memory := st2.memory ++ [strLit "Error: " ++ errm] }

/-- The text has a substring running from a `\x7b` to a `\x7d` that
validates as a `PlannerResponseModel` ("a parseable braced substring"). -/
def parseableBrace (raw : Str) : Prop :=
  ∃ s : Str, s <:+: raw ∧ s.head? = some braceO ∧ s.getLast? = some braceC ∧
    model_validate_json s ≠ none

/-- Number of planner decision records in a ledger. -/
def countPlannerRecs (l : List StepDetailModel) : Nat :=
  (l.filter (fun r => decide (r.tool = strLit "Planner"))).length

/-- Number of tool records (records tagged with a registered tool name). -/
def countToolRecs (l : List StepDetailModel) : Nat :=
  (l.filter (fun r => decide (r.tool ∈ TOOL_REGISTRY_keys))).length

/-- The canonical JSON object carrying the fields of a decision
(`None` encoded as `null`). -/
def fieldsObj (d : PlannerResponseModel) : JsonObj :=
  .cons (strLit "final") (.bool d.final)
    (.cons (strLit "tool_call")
        (match d.tool_call with | none => .null | some s => .str s)
      (.cons (strLit "tool_input")
          (match d.tool_input with | none => .null | some o => .obj o)
        (.cons (strLit "answer") (.str d.answer) .nil)))

/-- Canonical JSON text of a decision. -/
def encodeDecision (d : PlannerResponseModel) : Str :=
  encodeJson (.obj (fieldsObj d))

/-- All strings mentioned in the decision avoid control characters. -/
def wf_decision (d : PlannerResponseModel) : Bool :=
  wfVal (.obj (fieldsObj d))

/-- Wrap a text in a ```` ```json ```` fenced code block. -/
def fenceWrap (s : Str) : Str :=
  strLit "```json" ++ '\n' :: (s ++ '\n' :: strLit "```")

/-- The agent state produced by one loop iteration whose decision is
non-final and resolves to the registered tool `name` (both tool-outcome
branches). -/
def iterState (env : AgentEnv) (user : Str) (calls : Nat) (raw name : Str)
    (st : AgentState) : AgentState :=
  let d := parse_planner_output raw
  let st1 := log_step env st (strLit "Planner") (.str user) d.answer
  match env.tool calls name (d.tool_input.getD .nil) with
  | .ok res =>
    let st2 := log_step env st1 name (.optObj d.tool_input) res
    { st2 with memory := st2.memory ++
      [strLit "Tool `" ++ name ++ strLit "` returned: " ++ res] }
  | .error e =>
    let errm := strLit "Tool execution failed: " ++ e
    let st2 := log_step env st1 name (.optObj d.tool_input) errm
    { st2 with memory := st2.memory ++ [strLit "Tool error: " ++ errm] }

/-!  ## Concrete inputs used by the witnesses and counterexamples -/

/-- A sample user request. -/
def uIn : Str := strLit "build something"

/-- A non-final decision naming the unregistered tool "Nope". -/
def nopeDecision : PlannerResponseModel :=
  ⟨false, some (strLit "Nope"), none, strLit "Calling Nope"⟩

/-- Planner raw output that parses to `nopeDecision`. -/
def nopeRaw : Str := encodeDecision nopeDecision

/-- A non-final decision naming the registered tool. -/
def rbsDecision : PlannerResponseModel :=
  ⟨false, some (strLit "RunBlenderScript"),
   some (.cons (strLit "description") (.str (strLit "a cube")) .nil),
   strLit "Building now"⟩

/-- Planner raw output that parses to `rbsDecision`. -/
def rbsRaw : Str := encodeDecision rbsDecision

/-- A final decision. -/
def finalDecision : PlannerResponseModel := ⟨true, none, none, strLit "done"⟩

/-- Planner raw output that parses to `finalDecision`. -/
def finalRaw : Str := encodeDecision finalDecision

/-- Environment whose planner always calls the unregistered tool "Nope". -/
def envNope : AgentEnv :=
  ⟨fun _ => .ok nopeRaw, fun _ _ _ => .ok [], fun _ => []⟩

/-- Environment whose planner always calls `RunBlenderScript` and whose
tool always succeeds. -/
def envRbsOk : AgentEnv :=
  ⟨fun _ => .ok rbsRaw, fun _ _ _ => .ok (strLit "rendered"), fun _ => []⟩

/-- Environment whose planner always calls `RunBlenderScript` and whose
tool always raises `boom`. -/
def envRbsBoom : AgentEnv :=
  ⟨fun _ => .ok rbsRaw, fun _ _ _ => .error (strLit "boom"), fun _ => []⟩

/-- Environment whose planner call raises `boom`. -/
def envPlannerBoom : AgentEnv :=
  ⟨fun _ => .error (strLit "boom"), fun _ _ _ => .ok [], fun _ => []⟩

/-- Environment whose planner immediately answers with a final decision. -/
def envFinal : AgentEnv :=
  ⟨fun _ => .ok finalRaw, fun _ _ _ => .ok [], fun _ => []⟩

/-- A concrete ledger record for an unknown-tool step. -/
def unknownToolState : AgentState :=
  ⟨[⟨1, [], strLit "Error", .optStr (some (strLit "Nope")),
     strLit "Unknown tool: Nope"⟩], []⟩

/-- A concrete Blender environment. -/
def benv0 : BlenderEnv :=
  ⟨fun _ => [], strLit "20260101_000000", strLit "/app/", none, .timeout,
   false, false⟩

/-- A tool input whose "description" is the empty string (falsy). -/
def emptyDescInput : JsonObj :=
  .cons (strLit "description") (.str []) .nil

/-- The continuation after an encoded JSON number must not start with a
digit (true at every call site: a delimiter or end of input follows). -/
def restOk (rest : Str) : Prop :=
  ∀ c, rest.head? = some c → isDigitChar c = false

/-!  ## Lemmas: `pyStrip` and substring structure -/

theorem head?_dropWhile_not (p : Char → Bool) (l : Str) :
    ∀ c, (l.dropWhile p).head? = some c → p c = false := by
  induction l with
  | nil => intro c h; simp [List.dropWhile] at h
  | cons a t ih =>
    intro c h
    cases hp : p a with
    | true => rw [List.dropWhile_cons, hp] at h; exact ih c (by simpa using h)
    | false =>
      rw [List.dropWhile_cons, hp] at h
      simp at h
      simpa [← h] using hp

theorem dropWhile_eq_self_of (p : Char → Bool) (l : Str)
    (h : ∀ c, l.head? = some c → p c = false) : l.dropWhile p = l := by
  cases l with
  | nil => rfl
  | cons a t => simp [List.dropWhile_cons, h a rfl]

theorem getLast?_dropTrailing_not (p : Char → Bool) (l : Str) :
    ∀ c, (dropTrailing p l).getLast? = some c → p c = false := by
  intro c h
  rw [dropTrailing, List.getLast?_reverse] at h
  exact head?_dropWhile_not p l.reverse c h

theorem dropTrailing_eq_self_of (p : Char → Bool) (l : Str)
    (h : ∀ c, l.getLast? = some c → p c = false) : dropTrailing p l = l := by
  rw [dropTrailing, dropWhile_eq_self_of, List.reverse_reverse]
  intro c hc
  rw [List.head?_reverse] at hc
  exact h c hc

theorem pyStrip_eq_self (l : Str)
    (h1 : ∀ c, l.head? = some c → isPyWs c = false)
    (h2 : ∀ c, l.getLast? = some c → isPyWs c = false) : pyStrip l = l := by
  rw [pyStrip, dropWhile_eq_self_of _ _ h1, dropTrailing_eq_self_of _ _ h2]

theorem dropTrailing_isPref (p : Char → Bool) (l : Str) : dropTrailing p l <+: l := by
  obtain ⟨t, ht⟩ := List.dropWhile_suffix (l := l.reverse) p
  exact ⟨t.reverse, by rw [dropTrailing, ← List.reverse_append, ht, List.reverse_reverse]⟩

theorem head?_of_isPref {l₁ l₂ : Str} (h : l₁ <+: l₂) {c : Char}
    (hc : l₁.head? = some c) : l₂.head? = some c := by
  obtain ⟨t, rfl⟩ := h
  cases l₁ with
  | nil => simp at hc
  | cons a t' => simpa using hc

theorem pyStrip_head_not (l : Str) :
    ∀ c, (pyStrip l).head? = some c → isPyWs c = false := by
  intro c h
  rw [pyStrip] at h
  exact head?_dropWhile_not isPyWs l
    c (head?_of_isPref (dropTrailing_isPref isPyWs _) h)

theorem pyStrip_last_not (l : Str) :
    ∀ c, (pyStrip l).getLast? = some c → isPyWs c = false :=
  getLast?_dropTrailing_not isPyWs _

theorem pyStrip_idem (l : Str) : pyStrip (pyStrip l) = pyStrip l :=
  pyStrip_eq_self _ (pyStrip_head_not l) (pyStrip_last_not l)

theorem pyStrip_isInfix (l : Str) : pyStrip l <:+: l :=
  ((dropTrailing_isPref isPyWs _).isInfix).trans
    (List.dropWhile_suffix isPyWs).isInfix

theorem stripFence_isInfix (raw : Str) : stripFence raw <:+: raw := by
  rw [stripFence]
  split
  · exact (pyStrip_isInfix _).trans
      (((List.drop_suffix 7 _).isInfix).trans (List.take_prefix _ raw).isInfix)
  · exact List.infix_rfl

/-!  ## Lemmas: `model_validate_json`, `bracedMatch` and claim C3 -/

theorem exists_getLast?_of_ne_nil {l : Str} (h : l ≠ []) :
    ∃ c, l.getLast? = some c := by
  have h2 := List.getLast?_isSome (l := l)
  rw [Option.isSome_iff_exists] at h2
  exact h2.mpr h

theorem exists_head?_of_ne_nil {l : Str} (h : l ≠ []) : ∃ c, l.head? = some c := by
  cases l with
  | nil => exact absurd rfl h
  | cons a t => exact ⟨a, rfl⟩

theorem model_validate_json_braced {s : Str} (h : model_validate_json s ≠ none) :
    (pyStrip s).head? = some braceO ∧ (pyStrip s).getLast? = some braceC := by
  rw [model_validate_json] at h
  by_cases hc : (pyStrip s).head? = some braceO ∧ (pyStrip s).getLast? = some braceC
  · exact hc
  · rw [if_neg hc] at h
    exact absurd rfl h

theorem model_validate_json_pyStrip (s : Str) :
    model_validate_json (pyStrip s) = model_validate_json s := by
  rw [model_validate_json, model_validate_json, pyStrip_idem]

theorem bracedMatch_spec {l m : Str} (h : bracedMatch l = some m) :
    m <:+: l ∧ m.head? = some braceO ∧ m.getLast? = some braceC := by
  rw [bracedMatch] at h
  by_cases h1 : l.dropWhile (fun c => c ≠ braceO) = []
  · rw [if_pos h1] at h; exact absurd h (by simp)
  · rw [if_neg h1] at h
    by_cases h2 : dropTrailing (fun c => c ≠ braceC) (l.dropWhile (fun c => c ≠ braceO)) = []
    · rw [if_pos h2] at h; exact absurd h (by simp)
    · rw [if_neg h2] at h
      simp only [Option.some.injEq] at h
      subst h
      refine ⟨((dropTrailing_isPref _ _).isInfix).trans
        (List.dropWhile_suffix _).isInfix, ?_, ?_⟩
      · obtain ⟨c, hc⟩ := exists_head?_of_ne_nil h2
        have hl₁ := head?_of_isPref (dropTrailing_isPref _ _) hc
        have := head?_dropWhile_not (fun c => c ≠ braceO) l c hl₁
        simp at this
        rw [hc, this]
      · obtain ⟨c, hc⟩ := exists_getLast?_of_ne_nil h2
        have := getLast?_dropTrailing_not (fun c => c ≠ braceC) _ c hc
        simp at this
        rw [hc, this]

theorem parseableBrace_mem {raw : Str} (h : parseableBrace raw) : braceO ∈ raw := by
  obtain ⟨s, hinf, hhead, _, _⟩ := h
  exact hinf.mem (List.mem_of_mem_head? (by simp [hhead]))

/-- C3: for every input without a parseable braced substring,
`parse_planner_output` returns the fixed fallback decision (in particular
it never raises: it is a total function into decisions). -/
theorem parse_planner_output_unparseable (raw : Str) (h : ¬ parseableBrace raw) :
    parse_planner_output raw = fallbackDecision := by
  have hval : model_validate_json (stripFence raw) = none := by
    by_contra hne
    obtain ⟨hh, hl⟩ := model_validate_json_braced hne
    exact h ⟨pyStrip (stripFence raw),
      (pyStrip_isInfix _).trans (stripFence_isInfix raw), hh, hl,
      by rw [model_validate_json_pyStrip]; exact hne⟩
  rw [parse_planner_output, hval]
  cases hbm : bracedMatch (stripFence raw) with
  | none => rfl
  | some m =>
    obtain ⟨hinf, hh, hl⟩ := bracedMatch_spec hbm
    have hvm : model_validate_json m = none := by
      by_contra hne
      exact h ⟨m, hinf.trans (stripFence_isInfix raw), hh, hl, hne⟩
    simp [hvm]

/-!  ## Lemmas: decimal digits -/

theorem digitChar_toNat {d : Nat} (h : d < 10) : (digitChar d).toNat = 48 + d := by
  interval_cases d <;> rfl

theorem isDigitChar_digitChar {d : Nat} (h : d < 10) :
    isDigitChar (digitChar d) = true := by
  simp [isDigitChar, digitChar_toNat h]; omega

theorem digitVal_digitChar {d : Nat} (h : d < 10) : digitVal (digitChar d) = d := by
  simp [digitVal, digitChar_toNat h]

theorem natDigitsAux_acc (m : Nat) :
    ∀ acc, natDigitsAux m acc = natDigitsAux m [] ++ acc := by
  induction m using Nat.strong_induction_on with
  | _ m ih =>
    intro acc
    by_cases h : m < 10
    · rw [natDigitsAux, dif_pos h, natDigitsAux, dif_pos h]; rfl
    · rw [natDigitsAux, dif_neg h,
        ih (m / 10) (Nat.div_lt_self (by omega) (by omega))]
      conv_rhs => rw [natDigitsAux, dif_neg h,
        ih (m / 10) (Nat.div_lt_self (by omega) (by omega))]
      simp

theorem encodeNat_lt10 {m : Nat} (h : m < 10) : encodeNat m = [digitChar m] := by
  rw [encodeNat, natDigitsAux, dif_pos h]

theorem encodeNat_ge10 {m : Nat} (h : ¬ m < 10) :
    encodeNat m = encodeNat (m / 10) ++ [digitChar (m % 10)] := by
  rw [encodeNat, natDigitsAux, dif_neg h, natDigitsAux_acc, encodeNat]

theorem encodeNat_ne_nil (m : Nat) : encodeNat m ≠ [] := by
  by_cases h : m < 10
  · simp [encodeNat_lt10 h]
  · simp [encodeNat_ge10 h]

theorem encodeNat_digits (m : Nat) : ∀ c ∈ encodeNat m, isDigitChar c = true := by
  induction m using Nat.strong_induction_on with
  | _ m ih =>
    intro c hc
    by_cases h : m < 10
    · rw [encodeNat_lt10 h] at hc
      simp at hc
      rw [hc]; exact isDigitChar_digitChar h
    · rw [encodeNat_ge10 h] at hc
      rcases List.mem_append.mp hc with h1 | h2
      · exact ih (m / 10) (Nat.div_lt_self (by omega) (by omega)) c h1
      · simp at h2
        rw [h2]; exact isDigitChar_digitChar (Nat.mod_lt _ (by omega))

theorem foldl_encodeNat (m : Nat) :
    ∀ a, (encodeNat m).foldl (fun a c => a * 10 + digitVal c) a =
      a * 10 ^ (encodeNat m).length + m := by
  induction m using Nat.strong_induction_on with
  | _ m ih =>
    intro a
    by_cases h : m < 10
    · rw [encodeNat_lt10 h]
      simp [digitVal_digitChar h]
    · rw [encodeNat_ge10 h]
      rw [List.foldl_append,
        ih (m / 10) (Nat.div_lt_self (by omega) (by omega))]
      simp only [List.foldl_cons, List.foldl_nil, List.length_append,
        List.length_cons, List.length_nil]
      rw [digitVal_digitChar (Nat.mod_lt _ (by omega))]
      have hp : 10 ^ ((encodeNat (m / 10)).length + 1) =
          10 ^ (encodeNat (m / 10)).length * 10 := by ring
      have hdm := Nat.div_add_mod m 10
      rw [hp]
      ring_nf
      omega

theorem digitsToNat_encodeNat (m : Nat) : digitsToNat (encodeNat m) = m := by
  have := foldl_encodeNat m 0
  simpa [digitsToNat] using this

theorem takeWhile_append_all (p : Char → Bool) (l r : Str)
    (hl : ∀ c ∈ l, p c = true) (hr : ∀ c, r.head? = some c → p c = false) :
    (l ++ r).takeWhile p = l ∧ (l ++ r).dropWhile p = r := by
  induction l with
  | nil =>
    simp only [List.nil_append]
    constructor
    · cases r with
      | nil => rfl
      | cons a t => simp [List.takeWhile_cons, hr a rfl]
    · cases r with
      | nil => rfl
      | cons a t => simp [List.dropWhile_cons, hr a rfl]
  | cons a t ih =>
    have ha : p a = true := hl a (by simp)
    have iht := ih (fun c hc => hl c (by simp [hc]))
    simp [List.takeWhile_cons, List.dropWhile_cons, ha, iht.1, iht.2]

theorem parseDigits_encodeNat (m : Nat) (rest : Str) (hrest : restOk rest) :
    parseDigits (encodeNat m ++ rest) = some (m, rest) := by
  have h := takeWhile_append_all isDigitChar (encodeNat m) rest
    (encodeNat_digits m) hrest
  rw [parseDigits, h.1, h.2, if_neg (encodeNat_ne_nil m), digitsToNat_encodeNat]

/-!  ## Lemmas: JSON string literals -/

theorem skipWs_cons_false {c : Char} (h : isJsonWs c = false) (t : Str) :
    skipWs (c :: t) = c :: t := by
  simp [skipWs, List.dropWhile_cons, h]

theorem parseStrBody_encode (s : Str) (hwf : wfStr s = true) :
    ∀ rest, parseStrBody (encodeStrBody s ++ dquote :: rest) = some (s, rest) := by
  induction s with
  | nil =>
    intro rest
    rw [encodeStrBody, List.nil_append, parseStrBody.eq_def]
    simp only []
    rw [if_pos (show dquote.toNat = 34 from rfl)]
  | cons c t ih =>
    intro rest
    have h1 : 32 ≤ c.toNat := by
      have h := hwf; simp [wfStr] at h; exact h.1
    have h2 : wfStr t = true := by
      have h := hwf; simp [wfStr] at h
      simp [wfStr]; exact h.2
    rw [encodeStrBody, escChar]
    by_cases hc : (c.toNat = 34 || c.toNat = 92) = true
    · rw [if_pos hc]
      have hun : unescape c = some c := by
        rw [unescape, if_pos]
        simp at hc ⊢
        tauto
      simp only [List.cons_append, List.nil_append]
      rw [parseStrBody.eq_def]
      simp only []
      rw [if_neg (show ¬ bslash.toNat = 34 by simp [bslash]),
        if_pos (show bslash.toNat = 92 from rfl)]
      rw [hun]
      rw [ih h2 rest]
    · rw [if_neg hc]
      simp only [List.cons_append, List.nil_append]
      simp only [Bool.or_eq_true, decide_eq_true_eq, not_or] at hc
      rw [parseStrBody.eq_def]
      simp only []
      rw [if_neg hc.1, if_neg hc.2, if_neg (by omega)]
      rw [ih h2 rest]

/-!  ## Lemmas: one-step unfoldings of the JSON parser -/

theorem costVal_pos (v : Json) : 1 ≤ costVal v := by
  cases v <;> simp [costVal]

theorem isDigitChar_bounds {c : Char} (h : isDigitChar c = true) :
    48 ≤ c.toNat ∧ c.toNat ≤ 57 := by
  simpa [isDigitChar] using h

theorem parseVal_succ_brace (fuel : Nat) (X : Str) :
    parseVal (fuel + 1) (braceO :: X) =
      (match skipWs X with
       | [] => none
       | c2 :: rest2 =>
         if c2.toNat = 125 then some (.obj .nil, rest2)
         else
           match parseMembers fuel (c2 :: rest2) with
           | some (kvs, r) => some (.obj kvs, r)
           | none => none) := by
  rw [parseVal.eq_def]
  simp only []
  rw [skipWs_cons_false (by decide)]
  simp only []
  rw [if_pos (show braceO.toNat = 123 from rfl)]

theorem parseVal_succ_brack (fuel : Nat) (X : Str) :
    parseVal (fuel + 1) (brackO :: X) =
      (match skipWs X with
       | [] => none
       | c2 :: rest2 =>
         if c2.toNat = 93 then some (.arr .nil, rest2)
         else
           match parseElems fuel (c2 :: rest2) with
           | some (xs, r) => some (.arr xs, r)
           | none => none) := by
  rw [parseVal.eq_def]
  simp only []
  rw [skipWs_cons_false (by decide)]
  simp only []
  rw [if_neg (show ¬ brackO.toNat = 123 by decide),
    if_pos (show brackO.toNat = 91 from rfl)]

theorem parseVal_succ_quote (fuel : Nat) (X : Str) :
    parseVal (fuel + 1) (dquote :: X) =
      (match parseStrBody X with
       | some (s, r) => some (.str s, r)
       | none => none) := by
  rw [parseVal.eq_def]
  simp only []
  rw [skipWs_cons_false (by decide)]
  simp only []
  rw [if_neg (show ¬ dquote.toNat = 123 by decide),
    if_neg (show ¬ dquote.toNat = 91 by decide),
    if_pos (show dquote.toNat = 34 from rfl)]

theorem parseVal_succ_null (fuel : Nat) (rest : Str) :
    parseVal (fuel + 1) (strLit "null" ++ rest) = some (.null, rest) := by
  have hn : strLit "null" ++ rest = 'n' :: 'u' :: 'l' :: 'l' :: rest := rfl
  rw [hn, parseVal.eq_def]
  simp only []
  rw [skipWs_cons_false (by decide)]
  simp

theorem parseVal_succ_true (fuel : Nat) (rest : Str) :
    parseVal (fuel + 1) (strLit "true" ++ rest) =
      some (.bool true, rest) := by
  have ht : strLit "true" ++ rest = 't' :: 'r' :: 'u' :: 'e' :: rest := rfl
  rw [ht, parseVal.eq_def]
  simp only []
  rw [skipWs_cons_false (by decide)]
  simp

theorem parseVal_succ_false (fuel : Nat) (rest : Str) :
    parseVal (fuel + 1) (strLit "false" ++ rest) =
      some (.bool false, rest) := by
  have hf : strLit "false" ++ rest = 'f' :: 'a' :: 'l' :: 's' :: 'e' :: rest := rfl
  rw [hf, parseVal.eq_def]
  simp only []
  rw [skipWs_cons_false (by decide)]
  simp

theorem parseVal_succ_minus (fuel : Nat) (X : Str) :
    parseVal (fuel + 1) ('-' :: X) =
      (match parseDigits X with
       | some (m, r) => some (.num (-(m : Int)), r)
       | none => none) := by
  rw [parseVal.eq_def]
  simp only []
  rw [skipWs_cons_false (by decide)]
  simp only []
  rw [if_neg (by decide), if_neg (by decide), if_neg (by decide)]
  rw [if_neg (by decide), if_neg (by decide), if_neg (by decide),
    if_pos (show Char.toNat '-' = 45 from rfl)]

theorem parseVal_succ_digit (fuel : Nat) {c : Char} (h : isDigitChar c = true)
    (X : Str) :
    parseVal (fuel + 1) (c :: X) =
      (match parseDigits (c :: X) with
       | some (m, r) => some (.num (m : Int), r)
       | none => none) := by
  have hb := isDigitChar_bounds h
  rw [parseVal.eq_def]
  simp only []
  rw [skipWs_cons_false (by simp [isJsonWs]; omega)]
  simp only []
  have hne : ∀ m : Nat, m < 48 ∨ 57 < m → ¬ c.toNat = m := by
    intro m hm hc
    omega
  rw [if_neg (hne 123 (by omega)), if_neg (hne 91 (by omega))]
  rw [if_neg (hne 34 (by omega)), if_neg (hne 116 (by omega))]
  rw [if_neg (hne 102 (by omega)), if_neg (hne 110 (by omega))]
  rw [if_neg (hne 45 (by omega)), if_pos h]

theorem parseMembers_last (fuel : Nat) {k : Str} (hk : wfStr k = true)
    {X : Str} {v : Json} {rest : Str}
    (hv : parseVal fuel X = some (v, braceC :: rest)) :
    parseMembers (fuel + 1) (encodeStrLit k ++ ':' :: X) =
      some (.cons k v .nil, rest) := by
  have hsplit : encodeStrLit k ++ ':' :: X =
      dquote :: (encodeStrBody k ++ dquote :: ':' :: X) := by
    rw [encodeStrLit]; simp
  rw [hsplit, parseMembers.eq_def]
  simp only []
  rw [if_pos (show dquote.toNat = 34 from rfl),
    parseStrBody_encode k hk (':' :: X)]
  simp only []
  rw [skipWs_cons_false (by decide)]
  simp only []
  rw [hv]
  simp only []
  rw [skipWs_cons_false (by decide)]
  simp [braceC]

theorem parseMembers_more (fuel : Nat) {k : Str} (hk : wfStr k = true)
    {X : Str} {v : Json} {Y : Str}
    (hv : parseVal fuel X = some (v, ',' :: Y)) :
    parseMembers (fuel + 1) (encodeStrLit k ++ ':' :: X) =
      (match parseMembers fuel (skipWs Y) with
       | some (kvs, r5) => some (.cons k v kvs, r5)
       | none => none) := by
  have hsplit : encodeStrLit k ++ ':' :: X =
      dquote :: (encodeStrBody k ++ dquote :: ':' :: X) := by
    rw [encodeStrLit]; simp
  rw [hsplit, parseMembers.eq_def]
  simp only []
  rw [if_pos (show dquote.toNat = 34 from rfl),
    parseStrBody_encode k hk (':' :: X)]
  simp only []
  rw [skipWs_cons_false (by decide)]
  simp only []
  rw [hv]
  simp only []
  rw [skipWs_cons_false (by decide)]
  simp

theorem parseElems_last (fuel : Nat) {X : Str} {v : Json} {rest : Str}
    (hv : parseVal fuel X = some (v, brackC :: rest)) :
    parseElems (fuel + 1) X = some (.cons v .nil, rest) := by
  rw [parseElems.eq_def]
  simp only []
  rw [hv]
  simp only []
  rw [skipWs_cons_false (by decide)]
  simp [brackC]

theorem parseElems_more (fuel : Nat) {X : Str} {v : Json} {Y : Str}
    (hv : parseVal fuel X = some (v, ',' :: Y)) :
    parseElems (fuel + 1) X =
      (match parseElems fuel (skipWs Y) with
       | some (xs, r3) => some (.cons v xs, r3)
       | none => none) := by
  rw [parseElems.eq_def]
  simp only []
  rw [hv]
  simp only []
  rw [skipWs_cons_false (by decide)]
  simp

theorem wfMembers_cons {k : Str} {v : Json} {tl : JsonObj}
    (h : wfMembers (.cons k v tl) = true) :
    wfStr k = true ∧ wfVal v = true ∧ wfMembers tl = true := by
  rw [wfMembers] at h
  simp [Bool.and_eq_true] at h
  tauto

theorem wfElems_cons {v : Json} {tl : JsonArr}
    (h : wfElems (.cons v tl) = true) :
    wfVal v = true ∧ wfElems tl = true := by
  rw [wfElems] at h
  simpa [Bool.and_eq_true] using h

theorem restOk_head {c : Char} (h : isDigitChar c = false) (t : Str) :
    restOk (c :: t) := by
  intro c' hc'
  simp at hc'
  rwa [← hc']

theorem encodeNat_head (m : Nat) :
    ∃ c t, encodeNat m = c :: t ∧ isDigitChar c = true := by
  cases hm : encodeNat m with
  | nil => exact absurd hm (encodeNat_ne_nil m)
  | cons c t =>
    exact ⟨c, t, rfl, encodeNat_digits m c (by rw [hm]; simp)⟩

theorem encodeJson_head (v : Json) :
    ∃ c t, encodeJson v = c :: t ∧ isJsonWs c = false ∧
      ¬ c.toNat = 93 ∧ ¬ c.toNat = 125 := by
  cases v with
  | null =>
    exact ⟨'n', strLit "ull", by rw [encodeJson]; rfl, by decide, by decide,
      by decide⟩
  | bool b =>
    cases b with
    | true =>
      exact ⟨'t', strLit "rue", by rw [encodeJson]; rfl, by decide, by decide,
        by decide⟩
    | false =>
      exact ⟨'f', strLit "alse", by rw [encodeJson]; rfl, by decide, by decide,
        by decide⟩
  | num n =>
    rw [encodeJson, encodeInt]
    by_cases hn : n < 0
    · exact ⟨'-', _, by rw [if_pos hn], by decide, by decide, by decide⟩
    · obtain ⟨c, t, hct, hc⟩ := encodeNat_head n.natAbs
      have hb := isDigitChar_bounds hc
      exact ⟨c, t, by rw [if_neg hn, hct], by simp [isJsonWs]; omega,
        by omega, by omega⟩
  | str s =>
    exact ⟨dquote, _, by rw [encodeJson, encodeStrLit], by decide, by decide,
      by decide⟩
  | arr xs =>
    cases xs with
    | nil => exact ⟨brackO, _, by rw [encodeJson], by decide, by decide, by decide⟩
    | cons v tl =>
      exact ⟨brackO, _, by rw [encodeJson], by decide, by decide, by decide⟩
  | obj kvs =>
    cases kvs with
    | nil => exact ⟨braceO, _, by rw [encodeJson], by decide, by decide, by decide⟩
    | cons k v tl =>
      exact ⟨braceO, _, by rw [encodeJson], by decide, by decide, by decide⟩

theorem encodeElemsBody_split (v : Json) (tl : JsonArr) :
    ∃ Y, encodeElemsBody (.cons v tl) = encodeJson v ++ Y := by
  cases tl with
  | nil => exact ⟨[], by rw [encodeElemsBody]; simp⟩
  | cons v2 tl2 =>
    exact ⟨',' :: encodeElemsBody (.cons v2 tl2), by rw [encodeElemsBody]; simp⟩

theorem encodeMembersBody_head (k : Str) (v : Json) (tl : JsonObj) :
    ∃ Y, encodeMembersBody (.cons k v tl) = dquote :: Y := by
  cases tl with
  | nil =>
    exact ⟨(encodeStrBody k ++ [dquote]) ++ ':' :: encodeJson v,
      by rw [encodeMembersBody, encodeStrLit]; simp⟩
  | cons k2 v2 tl2 =>
    exact ⟨(encodeStrBody k ++ [dquote]) ++
        ':' :: encodeJson v ++ ',' :: encodeMembersBody (.cons k2 v2 tl2),
      by rw [encodeMembersBody, encodeStrLit] <;> simp⟩

theorem encodeMembersBody_cc (k : Str) (v : Json) (k2 : Str) (v2 : Json)
    (tl2 : JsonObj) :
    encodeMembersBody (.cons k v (.cons k2 v2 tl2)) =
      encodeStrLit k ++ ':' :: encodeJson v ++
        ',' :: encodeMembersBody (.cons k2 v2 tl2) := by
  rw [encodeMembersBody]; simp

theorem encodeElemsBody_cc (v v2 : Json) (tl2 : JsonArr) :
    encodeElemsBody (.cons v (.cons v2 tl2)) =
      encodeJson v ++ ',' :: encodeElemsBody (.cons v2 tl2) := by
  rw [encodeElemsBody]; simp

/-- Printer–parser round trip for the JSON model, by induction on a bound
of the parser fuel cost. -/
theorem parse_encode_all (N : Nat) :
    (∀ v : Json, costVal v ≤ N → ∀ slack rest, wfVal v = true → restOk rest →
      parseVal (slack + costVal v) (encodeJson v ++ rest) = some (v, rest)) ∧
    (∀ (k : Str) (v : Json) (tl : JsonObj), costMembers (.cons k v tl) ≤ N →
      ∀ slack rest, wfMembers (.cons k v tl) = true →
      parseMembers (slack + costMembers (.cons k v tl))
        (encodeMembersBody (.cons k v tl) ++ braceC :: rest) =
        some (.cons k v tl, rest)) ∧
    (∀ (v : Json) (tl : JsonArr), costElems (.cons v tl) ≤ N →
      ∀ slack rest, wfElems (.cons v tl) = true →
      parseElems (slack + costElems (.cons v tl))
        (encodeElemsBody (.cons v tl) ++ brackC :: rest) =
        some (.cons v tl, rest)) := by
  induction N with
  | zero =>
    refine ⟨?_, ?_, ?_⟩
    · intro v hc
      exact absurd hc (by have := costVal_pos v; omega)
    · intro k v tl hc
      exfalso
      rw [costMembers] at hc
      omega
    · intro v tl hc
      exfalso
      rw [costElems] at hc
      omega
  | succ N ih =>
    obtain ⟨ihV, ihM, ihE⟩ := ih
    refine ⟨?_, ?_, ?_⟩
    · intro v hcost slack rest hwf hrest
      cases v with
      | null =>
        simp only [costVal, encodeJson, List.cons_append, List.nil_append]
        rw [parseVal_succ_null]
      | bool b =>
        cases b with
        | true =>
          simp only [costVal, encodeJson, List.cons_append, List.nil_append]
          rw [parseVal_succ_true]
        | false =>
          simp only [costVal, encodeJson, List.cons_append, List.nil_append]
          rw [parseVal_succ_false]
      | num n =>
        simp only [costVal, encodeJson]
        rw [encodeInt]
        by_cases hn : n < 0
        · rw [if_pos hn, List.cons_append, parseVal_succ_minus,
            parseDigits_encodeNat _ rest hrest]
          have hcast : (-(n.natAbs : Int)) = n := by omega
          simp only []
          rw [hcast]
        · rw [if_neg hn]
          obtain ⟨c, t, hct, hc⟩ := encodeNat_head n.natAbs
          rw [hct, List.cons_append, parseVal_succ_digit _ hc,
            ← List.cons_append, ← hct, parseDigits_encodeNat _ rest hrest]
          have hcast : ((n.natAbs : Nat) : Int) = n := by omega
          simp only []
          rw [hcast]
      | str s =>
        have hwfs : wfStr s = true := by rwa [wfVal] at hwf
        simp only [costVal, encodeJson]
        rw [encodeStrLit, List.cons_append, List.append_assoc,
          List.singleton_append, parseVal_succ_quote,
          parseStrBody_encode s hwfs rest]
      | arr xs =>
        cases xs with
        | nil =>
          simp only [costVal, costElems, Nat.zero_add, encodeJson,
            List.cons_append, List.nil_append]
          rw [parseVal_succ_brack, skipWs_cons_false (by decide)]
          simp only []
          rw [if_pos (show brackC.toNat = 93 from rfl)]
        | cons v tl =>
          have hle : costElems (.cons v tl) ≤ N := by
            rw [costVal] at hcost
            omega
          have hwfE : wfElems (.cons v tl) = true := by rwa [wfVal] at hwf
          simp only [costVal, encodeJson]
          rw [show slack + (costElems (JsonArr.cons v tl) + 1) =
            (slack + costElems (JsonArr.cons v tl)) + 1 from by omega]
          rw [List.cons_append, List.append_assoc, List.singleton_append,
            parseVal_succ_brack]
          obtain ⟨Y, hY⟩ := encodeElemsBody_split v tl
          obtain ⟨c, t, hct, hcws, hc93, _⟩ := encodeJson_head v
          rw [hY, List.append_assoc, hct, List.cons_append,
            skipWs_cons_false hcws]
          simp only []
          rw [if_neg hc93, ← List.cons_append, ← hct, ← List.append_assoc,
            ← hY, ihE v tl hle slack rest hwfE]
      | obj kvs =>
        cases kvs with
        | nil =>
          simp only [costVal, costMembers, Nat.zero_add, encodeJson,
            List.cons_append, List.nil_append]
          rw [parseVal_succ_brace, skipWs_cons_false (by decide)]
          simp only []
          rw [if_pos (show braceC.toNat = 125 from rfl)]
        | cons k v tl =>
          have hle : costMembers (.cons k v tl) ≤ N := by
            rw [costVal] at hcost
            omega
          have hwfM : wfMembers (.cons k v tl) = true := by rwa [wfVal] at hwf
          simp only [costVal, encodeJson]
          rw [show slack + (costMembers (JsonObj.cons k v tl) + 1) =
            (slack + costMembers (JsonObj.cons k v tl)) + 1 from by omega]
          rw [List.cons_append, List.append_assoc, List.singleton_append,
            parseVal_succ_brace]
          obtain ⟨Y, hY⟩ := encodeMembersBody_head k v tl
          rw [hY, List.cons_append, skipWs_cons_false (by decide)]
          simp only []
          rw [if_neg (show ¬ dquote.toNat = 125 by decide),
            ← List.cons_append, ← hY, ihM k v tl hle slack rest hwfM]
    · intro k v tl hcost slack rest hwf
      obtain ⟨hk, hv, htl⟩ := wfMembers_cons hwf
      cases tl with
      | nil =>
        have hle : costVal v ≤ N := by
          rw [costMembers, costMembers] at hcost
          omega
        rw [show slack + costMembers (JsonObj.cons k v JsonObj.nil) =
          (slack + costVal v) + 1 from by rw [costMembers, costMembers]; omega]
        rw [encodeMembersBody, List.append_assoc, List.cons_append]
        exact parseMembers_last _ hk
          (ihV v hle slack (braceC :: rest) hv (restOk_head (by decide) rest))
      | cons k2 v2 tl2 =>
        have hle_v : costVal v ≤ N := by
          rw [costMembers, costMembers] at hcost
          omega
        have hle_m : costMembers (.cons k2 v2 tl2) ≤ N := by
          rw [costMembers] at hcost
          omega
        rw [show slack + costMembers (JsonObj.cons k v (JsonObj.cons k2 v2 tl2)) =
          (slack + costVal v + costMembers (JsonObj.cons k2 v2 tl2)) + 1 from by
            rw [costMembers]; omega]
        rw [encodeMembersBody_cc, List.append_assoc, List.cons_append,
          List.append_assoc, List.cons_append]
        have hvparse : parseVal
            (slack + costVal v + costMembers (JsonObj.cons k2 v2 tl2))
            (encodeJson v ++
              ',' :: (encodeMembersBody (JsonObj.cons k2 v2 tl2) ++ braceC :: rest)) =
            some (v, ',' :: (encodeMembersBody (JsonObj.cons k2 v2 tl2) ++
              braceC :: rest)) := by
          have h := ihV v hle_v (slack + costMembers (JsonObj.cons k2 v2 tl2))
            (',' :: (encodeMembersBody (JsonObj.cons k2 v2 tl2) ++ braceC :: rest))
            hv (restOk_head (by decide) _)
          rwa [show slack + costMembers (JsonObj.cons k2 v2 tl2) + costVal v =
            slack + costVal v + costMembers (JsonObj.cons k2 v2 tl2) from by omega] at h
        rw [parseMembers_more _ hk hvparse]
        obtain ⟨Y2, hY2⟩ := encodeMembersBody_head k2 v2 tl2
        rw [hY2, List.cons_append, skipWs_cons_false (by decide),
          ← List.cons_append, ← hY2,
          ihM k2 v2 tl2 hle_m (slack + costVal v) rest htl]
    · intro v tl hcost slack rest hwf
      obtain ⟨hv, htl⟩ := wfElems_cons hwf
      cases tl with
      | nil =>
        have hle : costVal v ≤ N := by
          rw [costElems, costElems] at hcost
          omega
        rw [show slack + costElems (JsonArr.cons v JsonArr.nil) =
          (slack + costVal v) + 1 from by rw [costElems, costElems]; omega]
        rw [encodeElemsBody]
        exact parseElems_last _
          (ihV v hle slack (brackC :: rest) hv (restOk_head (by decide) rest))
      | cons v2 tl2 =>
        have hle_v : costVal v ≤ N := by
          rw [costElems, costElems] at hcost
          omega
        have hle_e : costElems (.cons v2 tl2) ≤ N := by
          rw [costElems] at hcost
          omega
        rw [show slack + costElems (JsonArr.cons v (JsonArr.cons v2 tl2)) =
          (slack + costVal v + costElems (JsonArr.cons v2 tl2)) + 1 from by
            rw [costElems]; omega]
        rw [encodeElemsBody_cc, List.append_assoc, List.cons_append]
        have hvparse : parseVal
            (slack + costVal v + costElems (JsonArr.cons v2 tl2))
            (encodeJson v ++
              ',' :: (encodeElemsBody (JsonArr.cons v2 tl2) ++ brackC :: rest)) =
            some (v, ',' :: (encodeElemsBody (JsonArr.cons v2 tl2) ++
              brackC :: rest)) := by
          have h := ihV v hle_v (slack + costElems (JsonArr.cons v2 tl2))
            (',' :: (encodeElemsBody (JsonArr.cons v2 tl2) ++ brackC :: rest))
            hv (restOk_head (by decide) _)
          rwa [show slack + costElems (JsonArr.cons v2 tl2) + costVal v =
            slack + costVal v + costElems (JsonArr.cons v2 tl2) from by omega] at h
        rw [parseElems_more _ hvparse]
        obtain ⟨Y2, hY2⟩ := encodeElemsBody_split v2 tl2
        obtain ⟨c2, t2, hct2, hcws2, _, _⟩ := encodeJson_head v2
        rw [hY2, List.append_assoc, hct2, List.cons_append,
          skipWs_cons_false hcws2, ← List.cons_append, ← hct2,
          ← List.append_assoc, ← hY2,
          ihE v2 tl2 hle_e (slack + costVal v) rest htl]

/-- The parser fuel cost of a value is at most the length of its encoding. -/
theorem cost_le_len (N : Nat) :
    (∀ v : Json, costVal v ≤ N → costVal v ≤ (encodeJson v).length) ∧
    (∀ (k : Str) (v : Json) (tl : JsonObj), costMembers (.cons k v tl) ≤ N →
      costMembers (.cons k v tl) ≤ (encodeMembersBody (.cons k v tl)).length + 1) ∧
    (∀ (v : Json) (tl : JsonArr), costElems (.cons v tl) ≤ N →
      costElems (.cons v tl) ≤ (encodeElemsBody (.cons v tl)).length + 1) := by
  induction N with
  | zero =>
    refine ⟨?_, ?_, ?_⟩
    · intro v hc
      exact absurd hc (by have := costVal_pos v; omega)
    · intro k v tl hc
      exfalso; rw [costMembers] at hc; omega
    · intro v tl hc
      exfalso; rw [costElems] at hc; omega
  | succ N ih =>
    obtain ⟨ihV, ihM, ihE⟩ := ih
    refine ⟨?_, ?_, ?_⟩
    · intro v hc
      cases v with
      | null => decide
      | bool b => cases b <;> decide
      | num n =>
        simp only [costVal, encodeJson]
        rw [encodeInt]
        by_cases hn : n < 0
        · rw [if_pos hn]; simp
        · rw [if_neg hn]
          have := List.length_pos.mpr (encodeNat_ne_nil n.natAbs)
          omega
      | str s =>
        simp [costVal, encodeJson, encodeStrLit]
      | arr xs =>
        cases xs with
        | nil => simp [costVal, costElems, encodeJson]
        | cons v tl =>
          have h := ihE v tl (by rw [costVal] at hc; omega)
          rw [costVal, encodeJson]
          simp only [List.length_cons, List.length_append, List.length_singleton]
          omega
      | obj kvs =>
        cases kvs with
        | nil => simp [costVal, costMembers, encodeJson]
        | cons k v tl =>
          have h := ihM k v tl (by rw [costVal] at hc; omega)
          rw [costVal, encodeJson]
          simp only [List.length_cons, List.length_append, List.length_singleton]
          omega
    · intro k v tl hc
      cases tl with
      | nil =>
        have h := ihV v (by rw [costMembers, costMembers] at hc; omega)
        rw [costMembers, costMembers, encodeMembersBody]
        simp only [List.length_append, List.length_cons, encodeStrLit,
          List.length_singleton]
        omega
      | cons k2 v2 tl2 =>
        have h1 := ihV v (by rw [costMembers, costMembers] at hc; omega)
        have h2 := ihM k2 v2 tl2 (by rw [costMembers] at hc; omega)
        rw [costMembers, encodeMembersBody_cc]
        simp only [List.length_append, List.length_cons, encodeStrLit,
          List.length_singleton]
        omega
    · intro v tl hc
      cases tl with
      | nil =>
        have h := ihV v (by rw [costElems, costElems] at hc; omega)
        rw [costElems, costElems, encodeElemsBody]
        omega
      | cons v2 tl2 =>
        have h1 := ihV v (by rw [costElems, costElems] at hc; omega)
        have h2 := ihE v2 tl2 (by rw [costElems] at hc; omega)
        rw [costElems, encodeElemsBody_cc]
        simp only [List.length_append, List.length_cons]
        omega

theorem encodeDecision_shape (d : PlannerResponseModel) :
    encodeDecision d = braceO :: (encodeMembersBody (fieldsObj d) ++ [braceC]) := by
  rw [encodeDecision, fieldsObj, encodeJson]

theorem toDecision_fieldsObj (d : PlannerResponseModel) :
    toDecision (fieldsObj d) = some d := by
  cases d with
  | mk f tc ti a => cases tc <;> cases ti <;> rfl

theorem restOk_nil : restOk [] := by
  intro c hc
  simp at hc

theorem model_validate_json_encodeDecision (d : PlannerResponseModel)
    (hwf : wf_decision d = true) :
    model_validate_json (encodeDecision d) = some d := by
  have hshape := encodeDecision_shape d
  have hhead : (encodeDecision d).head? = some braceO := by rw [hshape]; rfl
  have hlast : (encodeDecision d).getLast? = some braceC := by
    rw [hshape,
      show braceO :: (encodeMembersBody (fieldsObj d) ++ [braceC]) =
        (braceO :: encodeMembersBody (fieldsObj d)) ++ [braceC] from rfl]
    exact List.getLast?_concat _
  have hstrip : pyStrip (encodeDecision d) = encodeDecision d := by
    refine pyStrip_eq_self _ ?_ ?_
    · intro c hc
      rw [hhead] at hc
      simp at hc
      rw [← hc]; rfl
    · intro c hc
      rw [hlast] at hc
      simp at hc
      rw [← hc]; rfl
  have hcost : costVal (.obj (fieldsObj d)) ≤ (encodeDecision d).length := by
    have := (cost_le_len (costVal (.obj (fieldsObj d)))).1 (.obj (fieldsObj d)) le_rfl
    rwa [encodeDecision]
  obtain ⟨slack, hslack⟩ : ∃ slack,
      slack + costVal (.obj (fieldsObj d)) = (encodeDecision d).length + 1 :=
    ⟨(encodeDecision d).length + 1 - costVal (.obj (fieldsObj d)), by omega⟩
  have hparse : parseVal ((encodeDecision d).length + 1) (encodeDecision d) =
      some (.obj (fieldsObj d), []) := by
    rw [← hslack]
    have h := (parse_encode_all (costVal (.obj (fieldsObj d)))).1
      (.obj (fieldsObj d)) le_rfl slack [] hwf restOk_nil
    rwa [List.append_nil, ← encodeDecision] at h
  rw [model_validate_json]
  simp only [hstrip]
  rw [if_pos ⟨hhead, hlast⟩, hparse]
  simp only []
  exact toDecision_fieldsObj d

theorem stripFence_encodeDecision (d : PlannerResponseModel) :
    stripFence (encodeDecision d) = encodeDecision d := by
  have hpre : (strLit "```json").isPrefixOf (encodeDecision d) = false := by
    rw [encodeDecision_shape d]; rfl
  rw [stripFence, hpre]
  simp

theorem pyStrip_newline_wrap (s : Str) (hne : s ≠ [])
    (hh : ∀ c, s.head? = some c → isPyWs c = false)
    (hl : ∀ c, s.getLast? = some c → isPyWs c = false) :
    pyStrip ('\n' :: (s ++ ['\n'])) = s := by
  rw [pyStrip, List.dropWhile_cons]
  rw [if_pos (show isPyWs '\n' = true from rfl)]
  have hh2 : ∀ c, (s ++ ['\n']).head? = some c → isPyWs c = false := by
    intro c hc
    cases s with
    | nil => exact absurd rfl hne
    | cons a t =>
      simp at hc
      rw [← hc]
      exact hh a rfl
  rw [dropWhile_eq_self_of _ _ hh2, dropTrailing, List.reverse_append]
  simp only [List.reverse_singleton, List.singleton_append, List.dropWhile_cons]
  rw [if_pos (show isPyWs '\n' = true from rfl),
    dropWhile_eq_self_of _ _ (by
      intro c hc
      rw [List.head?_reverse] at hc
      exact hl c hc),
    List.reverse_reverse]

theorem stripFence_fenceWrap (d : PlannerResponseModel) :
    stripFence (fenceWrap (encodeDecision d)) = encodeDecision d := by
  have hpre : (strLit "```json").isPrefixOf (fenceWrap (encodeDecision d)) = true := by
    rw [List.isPrefixOf_iff_prefix, fenceWrap]
    exact ⟨_, rfl⟩
  rw [stripFence, hpre, if_pos rfl]
  have hsplit : fenceWrap (encodeDecision d) =
      (strLit "```json" ++ '\n' :: (encodeDecision d ++ ['\n'])) ++ strLit "```" := by
    rw [fenceWrap]
    simp
  have hlen : (fenceWrap (encodeDecision d)).length - 3 =
      (strLit "```json" ++ '\n' :: (encodeDecision d ++ ['\n'])).length := by
    rw [hsplit]
    simp [strLit]
  rw [hlen, hsplit, List.take_left,
    show (7 : Nat) = (strLit "```json").length from rfl, List.drop_left]
  have hshape := encodeDecision_shape d
  refine pyStrip_newline_wrap _ (by rw [hshape]; simp) ?_ ?_
  · intro c hc
    rw [hshape] at hc
    simp at hc
    rw [← hc]; rfl
  · intro c hc
    rw [hshape,
      show braceO :: (encodeMembersBody (fieldsObj d) ++ [braceC]) =
        (braceO :: encodeMembersBody (fieldsObj d)) ++ [braceC] from rfl,
      List.getLast?_concat] at hc
    simp at hc
    rw [← hc]; rfl

/-- C4: for every decision, parsing its canonical JSON encoding — bare or
wrapped in a ```` ```json ```` fence — returns exactly that decision. -/
theorem parse_planner_output_roundtrip (d : PlannerResponseModel)
    (hwf : wf_decision d = true) :
    parse_planner_output (encodeDecision d) = d ∧
    parse_planner_output (fenceWrap (encodeDecision d)) = d := by
  constructor
  · rw [parse_planner_output, stripFence_encodeDecision d,
      model_validate_json_encodeDecision d hwf]
  · rw [parse_planner_output, stripFence_fenceWrap d,
      model_validate_json_encodeDecision d hwf]

/-!  ## Lemmas: the agent loop -/

theorem runLoop_exit (reg : List Str) (env : AgentEnv) (ms : Nat) (user : Str)
    (fuel sc calls : Nat) (st : AgentState) (h : ms ≤ sc) :
    runLoop reg env ms user fuel sc calls st =
      some (maxStepsMsg ms,
        log_step env st (strLit "System") (.str (strLit "max_steps_reached"))
          (maxStepsMsg ms)) := by
  cases fuel with
  | zero => rw [runLoop, if_pos h]
  | succ f => rw [runLoop, if_pos h]

theorem runLoop_planner_fail (reg : List Str) (env : AgentEnv) (ms : Nat)
    (user : Str) (fuel sc calls : Nat) (st : AgentState) (e : Str)
    (hsc : sc < ms) (hp : env.planner calls = .error e) :
    runLoop reg env ms user (fuel + 1) sc calls st =
      some (strLit "Agent execution failed: " ++ (strLit "Planner error: " ++ e),
        log_step env st (strLit "Error") (.str user)
          (strLit "Planner error: " ++ e)) := by
  rw [runLoop, if_neg (by omega), hp]

theorem runLoop_final (reg : List Str) (env : AgentEnv) (ms : Nat)
    (user : Str) (fuel sc calls : Nat) (st : AgentState) (raw : Str)
    (hsc : sc < ms) (hp : env.planner calls = .ok raw)
    (hf : (parse_planner_output raw).final = true) :
    runLoop reg env ms user (fuel + 1) sc calls st =
      some ((parse_planner_output raw).answer,
        log_step env st (strLit "Planner") (.str user)
          (parse_planner_output raw).answer) := by
  rw [runLoop, if_neg (by omega), hp]
  simp only [hf, if_true]

theorem runLoop_iter_tool (reg : List Str) (env : AgentEnv) (ms : Nat)
    (user : Str) (fuel sc calls : Nat) (st : AgentState) (raw name : Str)
    (hsc : sc < ms) (hp : env.planner calls = .ok raw)
    (hnf : (parse_planner_output raw).final = false)
    (htc : (parse_planner_output raw).tool_call = some name)
    (hreg : name ∈ reg) :
    runLoop reg env ms user (fuel + 1) sc calls st =
      runLoop reg env ms user fuel (sc + 1) (calls + 1)
        (iterState env user calls raw name st) := by
  rw [runLoop, if_neg (by omega), hp]
  simp only [hnf, Bool.false_eq_true, if_false, htc]
  rw [if_pos hreg, iterState]
  cases henv : env.tool calls name ((parse_planner_output raw).tool_input.getD .nil) <;>
    simp [henv]

theorem runLoop_iter_unknown (reg : List Str) (env : AgentEnv) (ms : Nat)
    (user : Str) (fuel sc calls : Nat) (st : AgentState) (raw : Str)
    (hsc : sc < ms) (hp : env.planner calls = .ok raw)
    (hnf : (parse_planner_output raw).final = false)
    (hunk : ∀ name, (parse_planner_output raw).tool_call = some name → name ∉ reg) :
    runLoop reg env ms user (fuel + 1) sc calls st =
      runLoop reg env ms user fuel sc (calls + 1)
        (unknownState env user raw st) := by
  rw [runLoop, if_neg (by omega), hp]
  simp only [hnf, Bool.false_eq_true, if_false]
  cases htc : (parse_planner_output raw).tool_call with
  | none => rw [unknownState]; simp [htc]
  | some name =>
    simp only []
    rw [if_neg (hunk name htc), unknownState]
    simp [htc]

theorem log_step_buffer (env : AgentEnv) (st : AgentState) (tool : Str)
    (inp : LogVal) (out : Str) :
    (log_step env st tool inp out).detailed_steps_buffer =
      st.detailed_steps_buffer ++
        [⟨st.detailed_steps_buffer.length + 1,
          env.clock st.detailed_steps_buffer.length, tool, inp, out⟩] := rfl

theorem log_step_memory (env : AgentEnv) (st : AgentState) (tool : Str)
    (inp : LogVal) (out : Str) :
    (log_step env st tool inp out).memory = st.memory := rfl

theorem ledger_ok_append_one {l : List StepDetailModel} {rec : StepDetailModel}
    (h : ledger_ok l) (hr : rec.step = l.length + 1) : ledger_ok (l ++ [rec]) := by
  intro i hi
  simp [List.length_append] at hi
  by_cases hlt : i < l.length
  · rw [List.get_append i hlt]
    exact h i hlt
  · have hie : i = l.length := by omega
    subst hie
    have : (l ++ [rec]).get ⟨l.length, by simp⟩ = rec := by
      simp [List.getElem_append_right]
    rw [this, hr]

theorem ledger_ok_log_step (env : AgentEnv) (st : AgentState) (tool : Str)
    (inp : LogVal) (out : Str) (h : ledger_ok st.detailed_steps_buffer) :
    ledger_ok (log_step env st tool inp out).detailed_steps_buffer := by
  rw [log_step_buffer]
  exact ledger_ok_append_one h rfl

theorem countPlannerRecs_append (l1 l2 : List StepDetailModel) :
    countPlannerRecs (l1 ++ l2) = countPlannerRecs l1 + countPlannerRecs l2 := by
  simp [countPlannerRecs, List.filter_append]

theorem countToolRecs_append (l1 l2 : List StepDetailModel) :
    countToolRecs (l1 ++ l2) = countToolRecs l1 + countToolRecs l2 := by
  simp [countToolRecs, List.filter_append]

theorem countPlannerRecs_one {rec : StepDetailModel} :
    countPlannerRecs [rec] = if rec.tool = strLit "Planner" then 1 else 0 := by
  by_cases h : rec.tool = strLit "Planner" <;> simp [countPlannerRecs, h]

theorem countToolRecs_one {rec : StepDetailModel} :
    countToolRecs [rec] = if rec.tool ∈ TOOL_REGISTRY_keys then 1 else 0 := by
  by_cases h : rec.tool ∈ TOOL_REGISTRY_keys <;> simp [countToolRecs, h]

theorem iterState_buffer (env : AgentEnv) (user : Str) (calls : Nat)
    (raw name : Str) (st : AgentState) :
    ∃ rec1 rec2 : StepDetailModel,
      (iterState env user calls raw name st).detailed_steps_buffer =
        st.detailed_steps_buffer ++ [rec1, rec2] ∧
      rec1.tool = strLit "Planner" ∧ rec2.tool = name ∧
      rec1.step = st.detailed_steps_buffer.length + 1 ∧
      rec2.step = st.detailed_steps_buffer.length + 2 := by
  rw [iterState]
  cases henv : env.tool calls name ((parse_planner_output raw).tool_input.getD .nil) with
  | ok res =>
    simp only [henv, log_step_buffer]
    refine ⟨⟨st.detailed_steps_buffer.length + 1,
        env.clock st.detailed_steps_buffer.length, strLit "Planner", .str user,
        (parse_planner_output raw).answer⟩,
      ⟨st.detailed_steps_buffer.length + 2,
        env.clock (st.detailed_steps_buffer.length + 1), name,
        .optObj (parse_planner_output raw).tool_input, res⟩,
      ?_, rfl, rfl, rfl, rfl⟩
    simp
  | error e =>
    simp only [henv, log_step_buffer]
    refine ⟨⟨st.detailed_steps_buffer.length + 1,
        env.clock st.detailed_steps_buffer.length, strLit "Planner", .str user,
        (parse_planner_output raw).answer⟩,
      ⟨st.detailed_steps_buffer.length + 2,
        env.clock (st.detailed_steps_buffer.length + 1), name,
        .optObj (parse_planner_output raw).tool_input,
        strLit "Tool execution failed: " ++ e⟩,
      ?_, rfl, rfl, rfl, rfl⟩
    simp

theorem iterState_memory (env : AgentEnv) (user : Str) (calls : Nat)
    (raw name : Str) (st : AgentState) :
    ∃ entry : Str,
      (iterState env user calls raw name st).memory = st.memory ++ [entry] := by
  rw [iterState]
  cases henv : env.tool calls name ((parse_planner_output raw).tool_input.getD .nil) with
  | ok res =>
    simp only [henv, log_step_memory]
    exact ⟨_, rfl⟩
  | error e =>
    simp only [henv, log_step_memory]
    exact ⟨_, rfl⟩

theorem parse_nopeRaw : parse_planner_output nopeRaw = nopeDecision := rfl

theorem parse_rbsRaw : parse_planner_output rbsRaw = rbsDecision := rfl

theorem parse_finalRaw : parse_planner_output finalRaw = finalDecision := rfl

theorem nope_loop_none (ms : Nat) (user : Str) (hms : 1 ≤ ms) :
    ∀ fuel calls st,
      runLoop TOOL_REGISTRY_keys envNope ms user fuel 0 calls st = none := by
  intro fuel
  induction fuel with
  | zero => intro calls st; rw [runLoop, if_neg (by omega)]
  | succ f ih =>
    intro calls st
    rw [runLoop_iter_unknown TOOL_REGISTRY_keys envNope ms user f 0 calls st
      nopeRaw (by omega) rfl (by rw [parse_nopeRaw]; rfl)
      (by
        intro name h
        rw [parse_nopeRaw] at h
        simp [nopeDecision] at h
        rw [← h]
        decide)]
    exact ih (calls + 1) _

theorem loop_exhaust (env : AgentEnv) (user : Str) (ms : Nat) (raws : Nat → Str)
    (hraw : ∀ n, env.planner n = .ok (raws n))
    (hnf : ∀ n, (parse_planner_output (raws n)).final = false)
    (hreg : ∀ n, ∃ name, (parse_planner_output (raws n)).tool_call = some name ∧
      name ∈ TOOL_REGISTRY_keys) :
    ∀ j sc calls st, sc + j = ms →
      ∃ st', runLoop TOOL_REGISTRY_keys env ms user j sc calls st =
          some (maxStepsMsg ms, st') ∧
        countPlannerRecs st'.detailed_steps_buffer =
          countPlannerRecs st.detailed_steps_buffer + j ∧
        countToolRecs st'.detailed_steps_buffer =
          countToolRecs st.detailed_steps_buffer + j ∧
        st'.detailed_steps_buffer.length =
          st.detailed_steps_buffer.length + 2 * j + 1 := by
  intro j
  induction j with
  | zero =>
    intro sc calls st hsc
    refine ⟨_, runLoop_exit _ _ _ _ _ _ _ _ (by omega), ?_, ?_, ?_⟩
    · rw [log_step_buffer, countPlannerRecs_append, countPlannerRecs_one]
      simp [strLit]
    · rw [log_step_buffer, countToolRecs_append, countToolRecs_one]
      simp [TOOL_REGISTRY_keys, strLit]
    · rw [log_step_buffer]
      simp
  | succ j ih =>
    intro sc calls st hsc
    obtain ⟨name, htc, hmem⟩ := hreg calls
    have hn : name = strLit "RunBlenderScript" := by
      simpa [TOOL_REGISTRY_keys] using hmem
    rw [runLoop_iter_tool TOOL_REGISTRY_keys env ms user j sc calls st
      (raws calls) name (by omega) (hraw calls) (hnf calls) htc hmem]
    obtain ⟨st', heq, h1, h2, h3⟩ := ih (sc + 1) (calls + 1)
      (iterState env user calls (raws calls) name st) (by omega)
    obtain ⟨rec1, rec2, hbuf, ht1, ht2, _, _⟩ :=
      iterState_buffer env user calls (raws calls) name st
    refine ⟨st', heq, ?_, ?_, ?_⟩
    · rw [h1, hbuf, countPlannerRecs_append]
      have hcnt : countPlannerRecs [rec1, rec2] = 1 := by
        have : countPlannerRecs [rec1, rec2] =
            countPlannerRecs [rec1] + countPlannerRecs [rec2] :=
          countPlannerRecs_append [rec1] [rec2]
        rw [this, countPlannerRecs_one, countPlannerRecs_one, ht1, ht2, hn]
        simp [strLit]
      omega
    · rw [h2, hbuf, countToolRecs_append]
      have hcnt : countToolRecs [rec1, rec2] = 1 := by
        have : countToolRecs [rec1, rec2] =
            countToolRecs [rec1] + countToolRecs [rec2] :=
          countToolRecs_append [rec1] [rec2]
        rw [this, countToolRecs_one, countToolRecs_one, ht1, ht2, hn]
        simp [TOOL_REGISTRY_keys, strLit]
      omega
    · rw [h3, hbuf]
      simp
      omega

theorem loop_short (env : AgentEnv) (user : Str) (ms : Nat) (raws : Nat → Str)
    (hraw : ∀ n, env.planner n = .ok (raws n))
    (hnf : ∀ n, (parse_planner_output (raws n)).final = false)
    (hreg : ∀ n, ∃ name, (parse_planner_output (raws n)).tool_call = some name ∧
      name ∈ TOOL_REGISTRY_keys) :
    ∀ j sc calls st, sc + j < ms →
      runLoop TOOL_REGISTRY_keys env ms user j sc calls st = none := by
  intro j
  induction j with
  | zero => intro sc calls st h; rw [runLoop, if_neg (by omega)]
  | succ j ih =>
    intro sc calls st h
    obtain ⟨name, htc, hmem⟩ := hreg calls
    rw [runLoop_iter_tool TOOL_REGISTRY_keys env ms user j sc calls st
      (raws calls) name (by omega) (hraw calls) (hnf calls) htc hmem]
    exact ih (sc + 1) (calls + 1) _ (by omega)

theorem loop_term (reg : List Str) (env : AgentEnv) (user : Str) (ms : Nat)
    (raws : Nat → Str)
    (hraw : ∀ n, env.planner n = .ok (raws n))
    (hok : ∀ n, (parse_planner_output (raws n)).final = true ∨
      ∃ name, (parse_planner_output (raws n)).tool_call = some name ∧ name ∈ reg) :
    ∀ j sc calls st, ms ≤ sc + j →
      ∃ r st', runLoop reg env ms user j sc calls st = some (r, st') ∧
        (r = maxStepsMsg ms ∨
         ∃ n, (parse_planner_output (raws n)).final = true ∧
           r = (parse_planner_output (raws n)).answer) := by
  intro j
  induction j with
  | zero =>
    intro sc calls st h
    exact ⟨_, _, runLoop_exit _ _ _ _ _ _ _ _ (by omega), Or.inl rfl⟩
  | succ j ih =>
    intro sc calls st h
    by_cases hsc : ms ≤ sc
    · exact ⟨_, _, runLoop_exit _ _ _ _ _ _ _ _ hsc, Or.inl rfl⟩
    · by_cases hf : (parse_planner_output (raws calls)).final = true
      · exact ⟨_, _, runLoop_final reg env ms user j sc calls st (raws calls)
          (by omega) (hraw calls) hf, Or.inr ⟨calls, hf, rfl⟩⟩
      · have hnf : (parse_planner_output (raws calls)).final = false := by
          revert hf
          cases (parse_planner_output (raws calls)).final <;> simp
        rcases hok calls with hf' | ⟨name, htc, hmem⟩
        · exact absurd hf' hf
        · rw [runLoop_iter_tool reg env ms user j sc calls st (raws calls) name
            (by omega) (hraw calls) hnf htc hmem]
          exact ih (sc + 1) (calls + 1) _ (by omega)

theorem log_step_isPref (env : AgentEnv) (st : AgentState) (tool : Str)
    (inp : LogVal) (out : Str) :
    st.detailed_steps_buffer <+: (log_step env st tool inp out).detailed_steps_buffer := by
  rw [log_step_buffer]
  exact ⟨_, rfl⟩

theorem runLoop_ledger (reg : List Str) (env : AgentEnv) (ms : Nat) (user : Str) :
    ∀ fuel sc calls st r st',
      runLoop reg env ms user fuel sc calls st = some (r, st') →
      st.detailed_steps_buffer <+: st'.detailed_steps_buffer ∧
      (ledger_ok st.detailed_steps_buffer →
        ledger_ok st'.detailed_steps_buffer) := by
  intro fuel
  induction fuel with
  | zero =>
    intro sc calls st r st' h
    rw [runLoop] at h
    split_ifs at h
    simp only [Option.some.injEq, Prod.mk.injEq] at h
    obtain ⟨hr, hst⟩ := h
    subst hst
    exact ⟨log_step_isPref _ _ _ _ _, ledger_ok_log_step _ _ _ _ _⟩
  | succ f ih =>
    intro sc calls st r st' h
    rw [runLoop] at h
    split_ifs at h with hsc
    · simp only [Option.some.injEq, Prod.mk.injEq] at h
      obtain ⟨hr, hst⟩ := h
      subst hst
      exact ⟨log_step_isPref _ _ _ _ _, ledger_ok_log_step _ _ _ _ _⟩
    · cases hp : env.planner calls with
      | error e =>
        rw [hp] at h
        simp only [Option.some.injEq, Prod.mk.injEq] at h
        obtain ⟨hr, hst⟩ := h
        subst hst
        exact ⟨log_step_isPref _ _ _ _ _, ledger_ok_log_step _ _ _ _ _⟩
      | ok raw =>
        rw [hp] at h
        simp only [] at h
        split_ifs at h with hf
        · simp only [Option.some.injEq, Prod.mk.injEq] at h
          obtain ⟨hr, hst⟩ := h
          subst hst
          exact ⟨log_step_isPref _ _ _ _ _, ledger_ok_log_step _ _ _ _ _⟩
        · cases htc : (parse_planner_output raw).tool_call with
          | some name =>
            rw [htc] at h
            simp only [] at h
            split_ifs at h with hmem
            · cases het : env.tool calls name
                  ((parse_planner_output raw).tool_input.getD .nil) with
              | ok res =>
                rw [het] at h
                simp only [] at h
                obtain ⟨hpre, hled⟩ := ih _ _ _ _ _ h
                refine ⟨?_, ?_⟩
                · exact ((log_step_isPref _ _ _ _ _).trans
                    (log_step_isPref _ _ _ _ _)).trans hpre
                · intro hok
                  exact hled (ledger_ok_log_step _ _ _ _ _
                    (ledger_ok_log_step _ _ _ _ _ hok))
              | error e =>
                rw [het] at h
                simp only [] at h
                obtain ⟨hpre, hled⟩ := ih _ _ _ _ _ h
                refine ⟨?_, ?_⟩
                · exact ((log_step_isPref _ _ _ _ _).trans
                    (log_step_isPref _ _ _ _ _)).trans hpre
                · intro hok
                  exact hled (ledger_ok_log_step _ _ _ _ _
                    (ledger_ok_log_step _ _ _ _ _ hok))
            · obtain ⟨hpre, hled⟩ := ih _ _ _ _ _ h
              refine ⟨?_, ?_⟩
              · exact ((log_step_isPref _ _ _ _ _).trans
                  (log_step_isPref _ _ _ _ _)).trans hpre
              · intro hok
                exact hled (ledger_ok_log_step _ _ _ _ _
                  (ledger_ok_log_step _ _ _ _ _ hok))
          | none =>
            rw [htc] at h
            simp only [] at h
            obtain ⟨hpre, hled⟩ := ih _ _ _ _ _ h
            refine ⟨?_, ?_⟩
            · exact ((log_step_isPref _ _ _ _ _).trans
                (log_step_isPref _ _ _ _ _)).trans hpre
            · intro hok
              exact hled (ledger_ok_log_step _ _ _ _ _
                (ledger_ok_log_step _ _ _ _ _ hok))

/-!  ## Claim theorems -/

/-- C1 counterexample: the claimed scenario predicts that the run exits
with the maximum-steps message after two unknown-tool iterations, so a
bound of 10 loop iterations would more than suffice; instead the loop is
still running after 10 iterations. -/
theorem c1_scenario_counterexample :
    run TOOL_REGISTRY_keys envNope 2 10 uIn = none := rfl

/-- C1 amended: with `max_steps = 2` and a planner that on every call
returns a non-final decision naming the unregistered tool "Nope", `run`
never raises but also never terminates, whatever bound is put on the
number of loop iterations: the unknown-tool branch continues the loop
without incrementing `step_count` (the spec's recoverable no-op policy),
appending one "Unknown tool" error entry to Memory per iteration, so the
fixed maximum-steps message is never returned. -/
theorem c1_unknown_tool_run_diverges :
    (∀ fuel, run TOOL_REGISTRY_keys envNope 2 fuel uIn = none) ∧
    (∀ st : AgentState, (unknownState envNope uIn nopeRaw st).memory =
      st.memory ++ [strLit "Error: Unknown tool: Nope"]) ∧
    (∀ fuel calls st,
      runLoop TOOL_REGISTRY_keys envNope 2 uIn (fuel + 1) 0 calls st =
        runLoop TOOL_REGISTRY_keys envNope 2 uIn fuel 0 (calls + 1)
          (unknownState envNope uIn nopeRaw st)) := by
  refine ⟨?_, ?_, ?_⟩
  · intro fuel
    rw [run]
    exact nope_loop_none 2 uIn (by omega) fuel 0 _
  · intro st
    rfl
  · intro fuel calls st
    exact runLoop_iter_unknown TOOL_REGISTRY_keys envNope 2 uIn fuel 0 calls st
      nopeRaw (by omega) rfl (by rw [parse_nopeRaw]; rfl)
      (by
        intro name h
        rw [parse_nopeRaw] at h
        simp [nopeDecision] at h
        rw [← h]
        decide)

/-- C2: when the planner never returns `final = true` and every decision
names a registered tool, the run terminates after exactly `max_steps`
iterations (fuel `max_steps` suffices and no smaller fuel does) with the
fixed exhaustion message, and the ledger holds exactly `max_steps` planner
records and `max_steps` tool records (plus the final System record, for a
total of `2 * max_steps + 1`). -/
theorem c2_never_final_exhausts (env : AgentEnv) (ms : Nat) (user : Str)
    (raws : Nat → Str)
    (hraw : ∀ n, env.planner n = .ok (raws n))
    (hnf : ∀ n, (parse_planner_output (raws n)).final = false)
    (hreg : ∀ n, ∃ name, (parse_planner_output (raws n)).tool_call = some name ∧
      name ∈ TOOL_REGISTRY_keys) :
    (∃ st', run TOOL_REGISTRY_keys env ms ms user = some (maxStepsMsg ms, st') ∧
      countPlannerRecs st'.detailed_steps_buffer = ms ∧
      countToolRecs st'.detailed_steps_buffer = ms ∧
      st'.detailed_steps_buffer.length = 2 * ms + 1) ∧
    (∀ f, f < ms → run TOOL_REGISTRY_keys env ms f user = none) := by
  constructor
  · obtain ⟨st', heq, h1, h2, h3⟩ := loop_exhaust env user ms raws hraw hnf hreg
      ms 0 0 ⟨[], [strLit "User requested: " ++ user]⟩ (by omega)
    refine ⟨st', by rw [run]; exact heq, ?_, ?_, ?_⟩
    · rw [h1]; simp [countPlannerRecs]
    · rw [h2]; simp [countToolRecs]
    · rw [h3]; simp
  · intro f hf
    rw [run]
    exact loop_short env user ms raws hraw hnf hreg f 0 0 _ (by omega)

theorem c2_never_final_exhausts_witness :
    (∃ st', run TOOL_REGISTRY_keys envRbsOk 2 2 uIn = some (maxStepsMsg 2, st') ∧
      countPlannerRecs st'.detailed_steps_buffer = 2 ∧
      countToolRecs st'.detailed_steps_buffer = 2 ∧
      st'.detailed_steps_buffer.length = 2 * 2 + 1) ∧
    (∀ f, f < 2 → run TOOL_REGISTRY_keys envRbsOk 2 f uIn = none) :=
  c2_never_final_exhausts envRbsOk 2 uIn (fun _ => rbsRaw) (fun _ => rfl)
    (fun _ => by rw [parse_rbsRaw]; rfl)
    (fun _ => ⟨strLit "RunBlenderScript", by rw [parse_rbsRaw]; rfl, by decide⟩)

/-- C3: any planner output without a parseable braced substring is turned
into the fixed fallback decision; `parse_planner_output` is total, so no
exception escapes. -/
theorem c3_unparseable_fallback (raw : Str) (h : ¬ parseableBrace raw) :
    parse_planner_output raw = fallbackDecision :=
  parse_planner_output_unparseable raw h

theorem c3_unparseable_fallback_witness :
    ¬ parseableBrace (strLit "The planner refused.") ∧
    parse_planner_output (strLit "The planner refused.") = fallbackDecision :=
  ⟨fun h => absurd (parseableBrace_mem h) (by decide),
   c3_unparseable_fallback _ (fun h => absurd (parseableBrace_mem h) (by decide))⟩

/-- C4: parsing the canonical JSON text of any decision — bare or wrapped
in a ```` ```json ```` fence — returns a decision whose fields exactly
match the encoded ones. -/
theorem c4_roundtrip (d : PlannerResponseModel) (hwf : wf_decision d = true) :
    parse_planner_output (encodeDecision d) = d ∧
    parse_planner_output (fenceWrap (encodeDecision d)) = d :=
  parse_planner_output_roundtrip d hwf

theorem c4_roundtrip_witness :
    wf_decision rbsDecision = true ∧
    parse_planner_output (encodeDecision rbsDecision) = rbsDecision ∧
    parse_planner_output (fenceWrap (encodeDecision rbsDecision)) = rbsDecision :=
  ⟨rfl, (c4_roundtrip rbsDecision rfl).1, (c4_roundtrip rbsDecision rfl).2⟩

/-- C5 counterexample: with a planner that calls the registered tool and a
tool that raises `boom`, the run completes (step exhaustion after 1 step),
but no Memory entry begins with "Tool execution failed: " — the memory
text is "Tool error: Tool execution failed: boom".  This refutes the claim
that a Memory entry beginning with "Tool execution failed: " is recorded. -/
theorem c5_memory_text_counterexample :
    (run TOOL_REGISTRY_keys envRbsBoom 1 1 uIn).map (fun p => p.1) =
      some (maxStepsMsg 1) ∧
    (run TOOL_REGISTRY_keys envRbsBoom 1 1 uIn).map (fun p => p.2.memory) =
      some [strLit "User requested: build something",
        strLit "Tool error: Tool execution failed: boom"] ∧
    (run TOOL_REGISTRY_keys envRbsBoom 1 1 uIn).map
      (fun p => p.2.memory.all
        (fun m => !(strLit "Tool execution failed").isPrefixOf m)) =
      some true :=
  ⟨rfl, rfl, rfl⟩

/-- C5 amended: a raising tool is contained: the iteration appends a Step
Record whose output begins with "Tool execution failed: " and a Memory
entry that begins with "Tool error: Tool execution failed: ", then the
loop continues with the step counter incremented; and if every decision is
final or names a registered tool, a run whose tools raise arbitrarily
still returns either a final answer or the step-exhaustion message. -/
theorem c5_tool_fault_contained :
    (∀ (reg : List Str) (env : AgentEnv) (ms : Nat) (user : Str)
      (fuel sc calls : Nat) (st : AgentState) (raw name e : Str),
      sc < ms → env.planner calls = .ok raw →
      (parse_planner_output raw).final = false →
      (parse_planner_output raw).tool_call = some name → name ∈ reg →
      env.tool calls name ((parse_planner_output raw).tool_input.getD .nil) =
        .error e →
      runLoop reg env ms user (fuel + 1) sc calls st =
        runLoop reg env ms user fuel (sc + 1) (calls + 1)
          (iterState env user calls raw name st) ∧
      (iterState env user calls raw name st).memory =
        st.memory ++ [strLit "Tool error: " ++
          (strLit "Tool execution failed: " ++ e)] ∧
      (∃ rec1 rec2 : StepDetailModel,
        (iterState env user calls raw name st).detailed_steps_buffer =
          st.detailed_steps_buffer ++ [rec1, rec2] ∧
        rec1.tool = strLit "Planner" ∧ rec2.tool = name ∧
        rec2.output = strLit "Tool execution failed: " ++ e) ∧
      (strLit "Tool execution failed: ").isPrefixOf
        (strLit "Tool execution failed: " ++ e) = true ∧
      (strLit "Tool error: Tool execution failed: ").isPrefixOf
        (strLit "Tool error: " ++ (strLit "Tool execution failed: " ++ e)) = true) ∧
    (∀ (reg : List Str) (env : AgentEnv) (user : Str) (ms : Nat)
      (raws : Nat → Str),
      (∀ n, env.planner n = .ok (raws n)) →
      (∀ n, (parse_planner_output (raws n)).final = true ∨
        ∃ name, (parse_planner_output (raws n)).tool_call = some name ∧
          name ∈ reg) →
      ∀ fuel, ms ≤ fuel →
        ∃ r st', run reg env ms fuel user = some (r, st') ∧
          (r = maxStepsMsg ms ∨
           ∃ n, (parse_planner_output (raws n)).final = true ∧
             r = (parse_planner_output (raws n)).answer)) := by
  constructor
  · intro reg env ms user fuel sc calls st raw name e hsc hp hnf htc hmem henv
    refine ⟨runLoop_iter_tool reg env ms user fuel sc calls st raw name
      hsc hp hnf htc hmem, ?_, ?_, ?_, ?_⟩
    · rw [iterState]
      simp only [henv, log_step_memory]
    · rw [iterState]
      simp only [henv, log_step_buffer]
      refine ⟨⟨st.detailed_steps_buffer.length + 1,
          env.clock st.detailed_steps_buffer.length, strLit "Planner", .str user,
          (parse_planner_output raw).answer⟩,
        ⟨st.detailed_steps_buffer.length + 2,
          env.clock (st.detailed_steps_buffer.length + 1), name,
          .optObj (parse_planner_output raw).tool_input,
          strLit "Tool execution failed: " ++ e⟩, ?_, rfl, rfl, rfl⟩
      simp
    · exact List.isPrefixOf_iff_prefix.mpr ⟨e, rfl⟩
    · exact List.isPrefixOf_iff_prefix.mpr ⟨e, by
        rw [← List.append_assoc]; rfl⟩
  · intro reg env user ms raws hraw hok fuel hfuel
    rw [run]
    exact loop_term reg env user ms raws hraw hok fuel 0 0 _ (by omega)

theorem c5_tool_fault_contained_witness :
    (runLoop TOOL_REGISTRY_keys envRbsBoom 1 uIn 1 0 0
        ⟨[], [strLit "User requested: " ++ uIn]⟩ =
      runLoop TOOL_REGISTRY_keys envRbsBoom 1 uIn 0 1 1
        (iterState envRbsBoom uIn 0 rbsRaw (strLit "RunBlenderScript")
          ⟨[], [strLit "User requested: " ++ uIn]⟩)) ∧
    (∃ r st', run TOOL_REGISTRY_keys envRbsBoom 1 1 uIn = some (r, st') ∧
      (r = maxStepsMsg 1 ∨
       ∃ n : Nat, (parse_planner_output rbsRaw).final = true ∧
         r = (parse_planner_output rbsRaw).answer)) :=
  ⟨(c5_tool_fault_contained.1 TOOL_REGISTRY_keys envRbsBoom 1 uIn 0 0 0
      ⟨[], [strLit "User requested: " ++ uIn]⟩ rbsRaw
      (strLit "RunBlenderScript") (strLit "boom") (by omega) rfl
      (by rw [parse_rbsRaw]; rfl) (by rw [parse_rbsRaw]; rfl) (by decide)
      rfl).1,
   c5_tool_fault_contained.2 TOOL_REGISTRY_keys envRbsBoom uIn 1
     (fun _ => rbsRaw) (fun _ => rfl)
     (fun _ => Or.inr ⟨strLit "RunBlenderScript", by rw [parse_rbsRaw]; rfl,
       by decide⟩) 1 (by omega)⟩

/-- C6: if the planner call raises on any iteration, the loop returns at
once — independent of remaining fuel, so no retry and no further
iteration happens — with the message "Agent execution failed: Planner
error: <e>" naming the error, after appending a single Error record. -/
theorem c6_planner_fault_fatal (reg : List Str) (env : AgentEnv) (ms : Nat)
    (user : Str) (fuel sc calls : Nat) (st : AgentState) (e : Str)
    (hsc : sc < ms) (hp : env.planner calls = .error e) :
    runLoop reg env ms user (fuel + 1) sc calls st =
      some (strLit "Agent execution failed: " ++ (strLit "Planner error: " ++ e),
        log_step env st (strLit "Error") (.str user)
          (strLit "Planner error: " ++ e)) ∧
    (strLit "Agent execution failed").isPrefixOf
      (strLit "Agent execution failed: " ++ (strLit "Planner error: " ++ e)) =
      true := by
  refine ⟨runLoop_planner_fail reg env ms user fuel sc calls st e hsc hp, ?_⟩
  exact List.isPrefixOf_iff_prefix.mpr
    ⟨strLit ": " ++ (strLit "Planner error: " ++ e), by
      rw [← List.append_assoc]; rfl⟩

theorem c6_planner_fault_fatal_witness :
    (runLoop TOOL_REGISTRY_keys envPlannerBoom 5 uIn 4 0 0
        ⟨[], [strLit "User requested: " ++ uIn]⟩ =
      some (strLit "Agent execution failed: " ++
          (strLit "Planner error: " ++ strLit "boom"),
        log_step envPlannerBoom ⟨[], [strLit "User requested: " ++ uIn]⟩
          (strLit "Error") (.str uIn)
          (strLit "Planner error: " ++ strLit "boom"))) ∧
    (strLit "Agent execution failed").isPrefixOf
      (strLit "Agent execution failed: " ++
        (strLit "Planner error: " ++ strLit "boom")) = true :=
  c6_planner_fault_fatal TOOL_REGISTRY_keys envPlannerBoom 5 uIn 3 0 0
    ⟨[], [strLit "User requested: " ++ uIn]⟩ (strLit "boom") (by omega) rfl

/-- C7 counterexample: `run` does not always return a string: with
`max_steps = 3` and the planner forever naming the unregistered tool
"Nope" the loop is still running after 10 iterations (and, by the amended
theorem's reasoning, after any number of iterations), although nothing
was raised. -/
theorem c7_always_returns_counterexample :
    run TOOL_REGISTRY_keys envNope 3 10 uIn = none := rfl

/-- C7 amended: no exception propagates out of `run` — a planner-client
fault becomes an "Agent execution failed" return value and tool faults
are contained in-loop (in the embedding every oracle fault is handled, so
the loop's only outcomes are a returned string or further looping) — and
whenever every planner decision is final or names a registered tool the
run does return a text string; but `run` is not total: it never returns
when the planner keeps naming unregistered tools. -/
theorem c7_exceptions_contained :
    (∀ fuel, run TOOL_REGISTRY_keys envNope 3 fuel uIn = none) ∧
    (∀ (reg : List Str) (env : AgentEnv) (ms : Nat) (user : Str)
      (fuel sc calls : Nat) (st : AgentState) (e : Str),
      sc < ms → env.planner calls = .error e →
      ∃ r st', runLoop reg env ms user (fuel + 1) sc calls st =
        some (r, st')) ∧
    (∀ (reg : List Str) (env : AgentEnv) (user : Str) (ms : Nat)
      (raws : Nat → Str),
      (∀ n, env.planner n = .ok (raws n)) →
      (∀ n, (parse_planner_output (raws n)).final = true ∨
        ∃ name, (parse_planner_output (raws n)).tool_call = some name ∧
          name ∈ reg) →
      ∀ fuel, ms ≤ fuel →
        ∃ r st', run reg env ms fuel user = some (r, st')) := by
  refine ⟨?_, ?_, ?_⟩
  · intro fuel
    rw [run]
    exact nope_loop_none 3 uIn (by omega) fuel 0 _
  · intro reg env ms user fuel sc calls st e hsc hp
    exact ⟨_, _, runLoop_planner_fail reg env ms user fuel sc calls st e hsc hp⟩
  · intro reg env user ms raws hraw hok fuel hfuel
    rw [run]
    obtain ⟨r, st', heq, _⟩ :=
      loop_term reg env user ms raws hraw hok fuel 0 0 _ (by omega)
    exact ⟨r, st', heq⟩

theorem c7_exceptions_contained_witness :
    run TOOL_REGISTRY_keys envNope 3 2 uIn = none ∧
    (∃ r st', runLoop TOOL_REGISTRY_keys envPlannerBoom 5 uIn 1 0 0
      ⟨[], [strLit "User requested: " ++ uIn]⟩ = some (r, st')) ∧
    (∃ r st', run TOOL_REGISTRY_keys envFinal 1 1 uIn = some (r, st')) :=
  ⟨c7_exceptions_contained.1 2,
   c7_exceptions_contained.2.1 TOOL_REGISTRY_keys envPlannerBoom 5 uIn 0 0 0
     ⟨[], [strLit "User requested: " ++ uIn]⟩ (strLit "boom") (by omega) rfl,
   c7_exceptions_contained.2.2 TOOL_REGISTRY_keys envFinal uIn 1
     (fun _ => finalRaw) (fun _ => rfl)
     (fun _ => Or.inl (by rw [parse_finalRaw]; rfl)) 1 (by omega)⟩

/-- C8: the ledger is append-only (the ingoing buffer is a prefix of the
outgoing buffer, so existing records are never modified) and every
record's `step` field equals its 1-based position, for any terminating
loop execution started from a well-indexed ledger. -/
theorem c8_ledger_invariant (reg : List Str) (env : AgentEnv) (ms : Nat)
    (user : Str) (fuel sc calls : Nat) (st : AgentState) (r : Str)
    (st' : AgentState)
    (hrun : runLoop reg env ms user fuel sc calls st = some (r, st'))
    (hok : ledger_ok st.detailed_steps_buffer) :
    st.detailed_steps_buffer <+: st'.detailed_steps_buffer ∧
    ledger_ok st'.detailed_steps_buffer := by
  obtain ⟨h1, h2⟩ := runLoop_ledger reg env ms user fuel sc calls st r st' hrun
  exact ⟨h1, h2 hok⟩

theorem c8_ledger_invariant_witness :
    ([] : List StepDetailModel) <+:
      [(⟨1, [], strLit "Planner", .str uIn, strLit "done"⟩ : StepDetailModel)] ∧
    ledger_ok
      [(⟨1, [], strLit "Planner", .str uIn, strLit "done"⟩ : StepDetailModel)] :=
  c8_ledger_invariant TOOL_REGISTRY_keys envFinal 5 uIn 3 0 0
    ⟨[], [strLit "User requested: " ++ uIn]⟩ (strLit "done")
    ⟨[⟨1, [], strLit "Planner", .str uIn, strLit "done"⟩],
      [strLit "User requested: " ++ uIn]⟩
    rfl (by intro i hi; simp at hi)

/-- C9: `get_execution_summary` reports a step as successful exactly when
its output starts with neither "Error" nor "Tool execution failed"; in
particular an unknown-tool step, whose output is "Unknown tool: <name>",
is reported as successful for every name. -/
theorem c9_success_flag :
    (∀ (st : AgentState) (i : Nat) (rec : StepDetailModel),
      st.detailed_steps_buffer.get? i = some rec →
      ∃ s : StepSummary, (get_execution_summary st).steps.get? i = some s ∧
        (s.success = true ↔
          (strLit "Error").isPrefixOf rec.output = false ∧
          (strLit "Tool execution failed").isPrefixOf rec.output = false)) ∧
    (∀ name : Str,
      (!(strLit "Error").isPrefixOf (strLit "Unknown tool: " ++ name) &&
       !(strLit "Tool execution failed").isPrefixOf
          (strLit "Unknown tool: " ++ name)) = true) := by
  constructor
  · intro st i rec h
    refine ⟨⟨rec.step, rec.tool, rec.ts,
      !(strLit "Error").isPrefixOf rec.output &&
      !(strLit "Tool execution failed").isPrefixOf rec.output⟩, ?_, ?_⟩
    · rw [get_execution_summary]
      simp only [List.get?_map, h]
      rfl
    · simp [Bool.and_eq_true]
  · intro name
    rfl

theorem c9_success_flag_witness :
    (∃ s : StepSummary,
      (get_execution_summary unknownToolState).steps.get? 0 = some s ∧
      (s.success = true ↔
        (strLit "Error").isPrefixOf (strLit "Unknown tool: Nope") = false ∧
        (strLit "Tool execution failed").isPrefixOf
          (strLit "Unknown tool: Nope") = false)) ∧
    (!(strLit "Error").isPrefixOf (strLit "Unknown tool: " ++ strLit "Nope") &&
     !(strLit "Tool execution failed").isPrefixOf
        (strLit "Unknown tool: " ++ strLit "Nope")) = true :=
  ⟨c9_success_flag.1 unknownToolState 0
      ⟨1, [], strLit "Error", .optStr (some (strLit "Nope")),
        strLit "Unknown tool: Nope"⟩ rfl,
   c9_success_flag.2 (strLit "Nope")⟩

/-- C10: when `tool_input` lacks a truthy "description" value (absent,
`null`, empty string, zero, or any other falsy value),
`run_blender_script_tool` returns exactly the fixed error text and
performs no external action: no script generation, no directory or file
write, and no subprocess. -/
theorem c10_missing_description (benv : BlenderEnv) (inp : JsonObj)
    (h : pyTruthyOpt (lookupLast inp (strLit "description")) = false) :
    run_blender_script_tool benv inp =
      (strLit "Error: Missing \x27description\x27 in tool_input.", []) := by
  rw [run_blender_script_tool]
  simp only [h, if_pos]

theorem c10_missing_description_witness :
    (pyTruthyOpt (lookupLast emptyDescInput (strLit "description")) = false) ∧
    run_blender_script_tool benv0 emptyDescInput =
      (strLit "Error: Missing \x27description\x27 in tool_input.", []) :=
  ⟨rfl, c10_missing_description benv0 emptyDescInput rfl⟩
